/-
Verification of the TIPPING log-template miner (crates `tipping-rs` core and
its python-binding crate) against its natural-language specification.

The Rust sources are shallowly embedded: strings are lists of characters
(`Str`), byte positions are recovered through `Char.utf8Size`, `HashMap`s
become association lists, `BTreeSet`s of tokens become `Finset`s, and the
`f32` dependency ratios become exact rationals.  Code that can panic
(byte-slicing in `split_token`, `unwrap`s, index arithmetic in the python
binding's mask smoothing) is embedded in the `Option` monad, `none`
standing for a panic of the surrounding call.
-/
import Mathlib

set_option maxHeartbeats 1000000

/-- Strings are modelled as lists of unicode characters, as produced by
`str::chars`.  Byte positions are recovered via `Char.utf8Size`. -/
abbrev Str := List Char

/-- Byte length of a string slice (`str::len` in Rust). -/
def byteLen (s : Str) : Nat := (s.map Char.utf8Size).sum

/-- Embedding of Rust `char::is_whitespace`: the Unicode `White_Space`
property, which is exactly the listed code points. -/
def rustIsWhitespace (c : Char) : Bool :=
  let n := c.toNat
  (0x9 ≤ n && n ≤ 0xD) || n = 0x20 || n = 0x85 || n = 0xA0 || n = 0x1680 ||
  (0x2000 ≤ n && n ≤ 0x200A) || n = 0x2028 || n = 0x2029 || n = 0x202F ||
  n = 0x205F || n = 0x3000

/-- Embedding of Rust `char::is_alphabetic` (the Unicode `Alphabetic`
property), restricted to the ASCII range; no claim in this development
depends on the classification of non-ASCII letters. -/
def rustIsAlphabetic (c : Char) : Bool := c.isAlpha

/-- Embedding of Rust `char::is_numeric` (Unicode `Nd`, `Nl`, `No`),
restricted to the ASCII range; no claim in this development depends on the
classification of non-ASCII digits. -/
def rustIsNumeric (c : Char) : Bool := c.isDigit

/-- Lexicographic order on strings by code point, which agrees with Rust's
`Ord for str` (byte-lexicographic, and UTF-8 preserves code-point order). -/
def strLt : Str → Str → Bool
  | [], [] => false
  | [], _ :: _ => true
  | _ :: _, [] => false
  | a :: as, b :: bs => if a.toNat < b.toNat then true
      else if b.toNat < a.toNat then false else strLt as bs

/-- Helper for `uniqueFirst`: `seen` already-emitted elements. -/
def uniqueFirstAux [DecidableEq α] : List α → List α → List α
  | _, [] => []
  | seen, x :: xs =>
      if x ∈ seen then uniqueFirstAux seen xs
      else x :: uniqueFirstAux (x :: seen) xs

/-- Embedding of itertools `unique`: drop duplicates, keeping the first
occurrence of each element, preserving order. -/
def uniqueFirst [DecidableEq α] (l : List α) : List α := uniqueFirstAux [] l

/-- Association-list lookup, modelling `HashMap::get`. -/
def alookup [DecidableEq κ] : List (κ × ν) → κ → Option ν
  | [], _ => none
  | (k', v) :: rest, k => if k = k' then some v else alookup rest k

/-- Embedding of `map.entry(k).and_modify(|c| *c += 1).or_insert(1)`. -/
def abump [DecidableEq κ] : List (κ × Nat) → κ → List (κ × Nat)
  | [], k => [(k, 1)]
  | (k', v) :: rest, k =>
      if k = k' then (k', v + 1) :: rest else (k', v) :: abump rest k

/-- Embedding of `HashMap::insert` (replacing an existing binding). -/
def ainsert [DecidableEq κ] : List (κ × ν) → κ → ν → List (κ × ν)
  | [], k, v => [(k, v)]
  | (k', v') :: rest, k, v =>
      if k = k' then (k, v) :: rest else (k', v') :: ainsert rest k v

/-- Ordered pairs of distinct positions, as produced by itertools
`tuple_combinations` / `combinations(2)`: every pair `(x, y)` with `x`
strictly before `y` in the list. -/
def comb2 : List α → List (α × α)
  | [] => []
  | x :: xs => xs.map (fun y => (x, y)) ++ comb2 xs

/-- Token type of the core tokenizer (`Token` in `core/src/tokenizer.rs`);
each variant carries the borrowed slice. -/
inductive Token where
  | alphabetic (s : Str)
  | numeric (s : Str)
  | symbolic (s : Str)
  | whitespace (s : Str)
  | impure (s : Str)
  | specialWhite (s : Str)
  | specialBlack (s : Str)
deriving DecidableEq, Repr

instance : Inhabited Token := ⟨Token.impure []⟩

/-- Embedding of `Token::as_str`. -/
def Token.as_str : Token → Str
  | .alphabetic s => s
  | .numeric s => s
  | .symbolic s => s
  | .whitespace s => s
  | .impure s => s
  | .specialWhite s => s
  | .specialBlack s => s

/-- Embedding of `Token::with`: classify a slice given the symbol set.
`slice.len() == 1` in the source is a byte-length test. -/
def Token.with' (symbols : List Char) (s : Str) : Token :=
  if s.all rustIsAlphabetic then .alphabetic s
  else if s.all rustIsNumeric then .numeric s
  else if byteLen s = 1 then
    if s.all rustIsWhitespace then .whitespace s
    else if s.all (fun c => symbols.contains c) then .symbolic s
    else .impure s
  else .impure s

/-- Pre-token type of `pre_tokenize` (`PreToken` in the source). -/
inductive PreToken where
  | specialWhite (s : Str)
  | specialBlack (s : Str)
  | unrefined (s : Str)
deriving DecidableEq, Repr

/-- Well-formedness of a `find_iter` match list over a string of length
`len`, starting no earlier than `lo`: matches are in order, non-overlapping
and within bounds.  Any regex engine's `find_iter` satisfies this. -/
def MatchesWF (len : Nat) : Nat → List (Nat × Nat) → Prop
  | _, [] => True
  | lo, m :: rest => lo ≤ m.1 ∧ m.1 ≤ m.2 ∧ m.2 ≤ len ∧ MatchesWF len m.2 rest

/-- Abstract model of a compiled regex: its `find_iter` match spans (as
character offsets, since regex matches always fall on character
boundaries), bundled with the well-formedness every engine guarantees. -/
structure RegexM where
  find : Str → List (Nat × Nat)
  wf : ∀ s, MatchesWF s.length 0 (find s)

/-- Slice `msg[a..b]` (character offsets). -/
def strSlice (msg : Str) (a b : Nat) : Str := (msg.drop a).take (b - a)

/-- Recursive worker for `split_special`; `li` is `last_idx`. -/
def splitSpecialGo (msg : Str) (mk : Str → PreToken) : Nat → List (Nat × Nat) → List PreToken
  | li, [] => if li ≠ msg.length then [.unrefined (msg.drop li)] else []
  | li, m :: rest =>
      if m.2 - m.1 > 0 then
        (if m.1 ≠ li then [.unrefined (strSlice msg li m.1)] else []) ++
          mk (strSlice msg m.1 m.2) :: splitSpecialGo msg mk m.2 rest
      else splitSpecialGo msg mk li rest

/-- Embedding of `split_special`: cut a slice along the matches of one
regex, tagging matches with `mk` and gaps as `Unrefined`.  Zero-width
matches are skipped without advancing `last_idx`. -/
def split_special (msg : Str) (r : RegexM) (mk : Str → PreToken) : List PreToken :=
  splitSpecialGo msg mk 0 (r.find msg)

/-- One pass of `pre_tokenize` over the pending pre-tokens with one regex:
already-special spans pass through, unrefined spans are split. -/
def preStep (mk : Str → PreToken) (r : RegexM) (pts : List PreToken) : List PreToken :=
  pts.flatMap fun pt =>
    match pt with
    | .unrefined s => split_special s r mk
    | other => [other]

/-- Tokenizer configuration (`Tokenizer` struct): special-white regexes,
special-black regexes, and the symbol set. -/
structure TokenizerCfg where
  whites : List RegexM
  blacks : List RegexM
  symbols : List Char

/-- Embedding of `Tokenizer::pre_tokenize`: run all white regexes, then all
black regexes, over the remaining unrefined spans. -/
def pre_tokenize (cfg : TokenizerCfg) (msg : Str) : List PreToken :=
  cfg.blacks.foldl (fun pts r => preStep PreToken.specialBlack r pts)
    (cfg.whites.foldl (fun pts r => preStep PreToken.specialWhite r pts)
      [PreToken.unrefined msg])

/-- Separator predicate of `split_token`: whitespace or configured symbol. -/
def isSep (symbols : List Char) (c : Char) : Bool :=
  rustIsWhitespace c || symbols.contains c

/-- Recursive worker for `split_token`.  `acc` is the pending non-separator
run.  The source slices the separator as `&msg[end_idx..end_idx + 1]`,
which panics (`none`) when the separator character occupies more than one
byte, since `end_idx + 1` is then not a character boundary. -/
def splitTokenGo (symbols : List Char) : Str → Str → Option (List Token)
  | acc, [] => some (if acc.isEmpty then [] else [Token.with' symbols acc])
  | acc, c :: rest =>
      if isSep symbols c then
        if c.utf8Size = 1 then
          (splitTokenGo symbols [] rest).map fun tl =>
            (if acc.isEmpty then [] else [Token.with' symbols acc]) ++
              Token.with' symbols [c] :: tl
        else none
      else splitTokenGo symbols (acc ++ [c]) rest

/-- Embedding of `split_token`: split an unrefined span at whitespace and
symbol characters, classifying every emitted slice with `Token::with`. -/
def split_token (symbols : List Char) (msg : Str) : Option (List Token) :=
  splitTokenGo symbols [] msg

/-- Refinement phase of `Tokenizer::tokenize`: specials carry over,
unrefined spans go through `split_token`. -/
def refineTokens (symbols : List Char) : List PreToken → Option (List Token)
  | [] => some []
  | .specialWhite s :: rest =>
      (refineTokens symbols rest).map (Token.specialWhite s :: ·)
  | .specialBlack s :: rest =>
      (refineTokens symbols rest).map (Token.specialBlack s :: ·)
  | .unrefined s :: rest => do
      let a ← split_token symbols s
      let b ← refineTokens symbols rest
      pure (a ++ b)

/-- Embedding of `Tokenizer::tokenize` (identical in the core crate and in
the python-binding crate). -/
def tokenize (cfg : TokenizerCfg) (msg : Str) : Option (List Token) :=
  refineTokens cfg.symbols (pre_tokenize cfg msg)

example : tokenize ⟨[], [], []⟩ ['a', 'b'] = some [Token.alphabetic ['a', 'b']] := by decide

example : tokenize ⟨[], [], []⟩ ['a', ' ', 'x', '1'] =
    some [Token.alphabetic ['a'], Token.whitespace [' '], Token.impure ['x', '1']] := by
  decide

example : tokenize ⟨[], [], ['.']⟩ ['a', '.', 'b'] =
    some [Token.alphabetic ['a'], Token.symbolic ['.'], Token.alphabetic ['b']] := by
  decide

example : tokenize ⟨[], [], []⟩ ['a', Char.ofNat 0xA0, 'b'] = none := by decide

/-- Variant rank of a token, following the declaration order of the Rust
enum, which `derive(PartialOrd, Ord)` compares first. -/
def tokRank : Token → Nat
  | .alphabetic _ => 0
  | .numeric _ => 1
  | .symbolic _ => 2
  | .whitespace _ => 3
  | .impure _ => 4
  | .specialWhite _ => 5
  | .specialBlack _ => 6

/-- Embedding of the derived `Ord` on `Token`: variant order first, slice
order second. -/
def tokLt (a b : Token) : Bool :=
  tokRank a < tokRank b || (tokRank a = tokRank b && strLt a.as_str b.as_str)

/-- Ordered-set insertion into a sorted duplicate-free list
(`BTreeSet::insert`): already-present elements are left in place. -/
def sinsert (lt : α → α → Bool) (x : α) : List α → List α
  | [] => [x]
  | y :: ys =>
      if lt x y then x :: y :: ys
      else if lt y x then y :: sinsert lt x ys
      else y :: ys

/-- Ordered-set removal (`BTreeSet::remove`). -/
def serase [DecidableEq α] (x : α) (l : List α) : List α := l.filter (· ≠ x)

/-- Canonical ordered set of a list's elements (`collect::<BTreeSet<_>>`;
also the model of a `HashSet`, whose identity is its element set). -/
def sofList (lt : α → α → Bool) (l : List α) : List α :=
  l.foldl (fun s x => sinsert lt x s) []

/-- Ordered sets of tokens model `BTreeSet<Token>`. -/
abbrev TokSet := List Token

/-- Ordered sets of texts model `HashSet<&str>` / `HashSet<String>`. -/
abbrev StrSet := List Str

/-- Filter flags of `StaticFilter` (`token_filter.rs`). -/
structure StaticFilter where
  alphabetic : Bool
  numeric : Bool
  impure : Bool
deriving DecidableEq, Repr

/-- Embedding of `StaticFilter::token_filter` (identical to the closure in
the python binding): which token variants feed the co-occurrence record. -/
def token_filter (f : StaticFilter) : Token → Bool
  | .alphabetic _ => f.alphabetic
  | .numeric _ => f.numeric
  | .impure _ => f.impure
  | .symbolic _ => false
  | .whitespace _ => false
  | .specialBlack _ => false
  | .specialWhite _ => true

/-- Embedding of `TokenPair::with`: order-canonicalized pair of texts,
`(t1, t2)` if `t1 > t2` else `(t2, t1)`. -/
def tokenPair (t1 t2 : Str) : Str × Str :=
  if strLt t2 t1 then (t1, t2) else (t2, t1)

/-- Embedding of `TokenRecord`: single-occurrence and pair-occurrence
counts keyed by token text. -/
structure TokenRecord where
  soc : List (Str × Nat)
  poc : List ((Str × Str) × Nat)
deriving DecidableEq, Repr

/-- Distinct filtered token texts of one message:
`tokenize(msg).unique().filter(tf).map(as_str).collect::<HashSet>()`.
The second `uniqueFirst` models the final `HashSet` collapse of equal
texts carried by different variants. -/
def msgTexts (cfg : TokenizerCfg) (f : StaticFilter) (msg : Str) : Option (List Str) := do
  let toks ← tokenize cfg msg
  pure (uniqueFirst (((uniqueFirst toks).filter (token_filter f)).map Token.as_str))

/-- Per-message update of the record: bump `soc` once per distinct text and
`poc` once per unordered pair of distinct texts. -/
def recordMsg (r : TokenRecord) (texts : List Str) : TokenRecord :=
  { soc := texts.foldl abump r.soc
    poc := (comb2 texts).foldl (fun m p => abump m (tokenPair p.1 p.2)) r.poc }

/-- One fold step of `TokenRecord::new` over the message list. -/
def recordStep (cfg : TokenizerCfg) (f : StaticFilter) (r : TokenRecord) (msg : Str) :
    Option TokenRecord := do
  let ts ← msgTexts cfg f msg
  pure (recordMsg r ts)

/-- Embedding of `TokenRecord::new` (sequential execution of the
rayon fold/reduce, whose merge is commutative count addition). -/
def TokenRecord.new (cfg : TokenizerCfg) (f : StaticFilter) (msgs : List Str) :
    Option TokenRecord :=
  msgs.foldlM (recordStep cfg f) ⟨[], []⟩

/-- Embedding of `TokenRecord::occurence`. -/
def TokenRecord.occurence (r : TokenRecord) (t : Str) : Option Nat := alookup r.soc t

/-- Exact value of a quotient of two counts, kept as an unreduced
numerator/denominator pair.  The source computes such quotients as `f32`;
every comparison settled in this development is exact in either
arithmetic.  `Frac.toRat` recovers the represented rational. -/
structure Frac where
  num : Nat
  den : Nat
deriving DecidableEq, Repr

/-- Rational value represented by a `Frac`. -/
def Frac.toRat (f : Frac) : ℚ := (f.num : ℚ) / (f.den : ℚ)

/-- Comparison `a > b` of two quotients by cross-multiplication; for
positive denominators this agrees with the comparison of the represented
rationals (`fracGt_iff`). -/
def fracGt (a b : Frac) : Bool := decide (a.num * b.den > b.num * a.den)

/-- Sanity check for the encoding: `fracGt` decides the rational
comparison whenever both denominators are positive. -/
theorem fracGt_iff (a b : Frac) (ha : 0 < a.den) (hb : 0 < b.den) :
    fracGt a b = true ↔ a.toRat > b.toRat := by
  have ha' : (0 : ℚ) < (a.den : ℚ) := by exact_mod_cast ha
  have hb' : (0 : ℚ) < (b.den : ℚ) := by exact_mod_cast hb
  unfold fracGt Frac.toRat
  rw [decide_eq_true_iff, gt_iff_lt, gt_iff_lt, div_lt_div_iff₀ hb' ha']
  norm_cast

/-- Embedding of `TokenRecord::dependency`: the quotient `pair / single`
(computed as `f32` in the source, represented exactly here). -/
def TokenRecord.dependency (r : TokenRecord) (eve con : Str) : Option Frac := do
  let double ← alookup r.poc (tokenPair eve con)
  let single ← alookup r.soc eve
  pure ⟨double, single⟩

/-- Directed graph on node indices, as built by `build_graph` over a
`MatrixGraph`: `nodes` in insertion order, explicit edge list. -/
structure RGraph where
  nodes : List Token
  edges : List (Nat × Nat)
deriving DecidableEq, Repr

/-- Embedding of `build_graph`: nodes are the distinct tokens in first
appearance order; for every index pair `i < j` an edge is added in each
direction whose `is_connected` test passes. -/
def build_graph (toks : List Token) (conn : Token → Token → Bool) : RGraph :=
  let nodes := uniqueFirst toks
  let edges := (comb2 (List.range nodes.length)).foldl
    (fun es p =>
      let n1 := nodes.getD p.1 default
      let n2 := nodes.getD p.2 default
      es ++ (if conn n1 n2 then [(p.1, p.2)] else []) ++
        (if conn n2 n1 then [(p.2, p.1)] else [])) []
  ⟨nodes, edges⟩

/-- Successors of node `i`, in ascending index order (the iteration order
of a `MatrixGraph` row). -/
def adjOf (g : RGraph) (i : Nat) : List Nat :=
  (List.range g.nodes.length).filter (fun j => (i, j) ∈ g.edges)

/-- Predecessors of node `i` (successors in the reversed graph). -/
def radjOf (g : RGraph) (i : Nat) : List Nat :=
  (List.range g.nodes.length).filter (fun j => (j, i) ∈ g.edges)

/-- Fuel-indexed depth-first postorder emission (`DfsPostOrder`): visit `u`
unless already discovered, recurse into neighbours (stack order, hence the
`reverse`), then emit `u`.  Returns the updated discovered set and the
emitted order.  Fuel `≥` node count makes exhaustion unreachable. -/
def dfsPost (adj : Nat → List Nat) : Nat → List Nat → Nat → List Nat × List Nat
  | 0, vis, _ => (vis, [])
  | fuel + 1, vis, u =>
      if u ∈ vis then (vis, [])
      else
        let st := (adj u).reverse.foldl
          (fun (st : List Nat × List Nat) v =>
            let r := dfsPost adj fuel st.1 v
            (r.1, st.2 ++ r.2)) (u :: vis, [])
        (st.1, st.2 ++ [u])

/-- Fuel-indexed depth-first preorder collection (`Dfs::next` loop):
emit `u` on discovery, then recurse into neighbours. -/
def dfsCollect (adj : Nat → List Nat) : Nat → List Nat → Nat → List Nat × List Nat
  | 0, vis, _ => (vis, [])
  | fuel + 1, vis, u =>
      if u ∈ vis then (vis, [])
      else
        (adj u).reverse.foldl
          (fun (st : List Nat × List Nat) v =>
            let r := dfsCollect adj fuel st.1 v
            (r.1, st.2 ++ r.2)) (u :: vis, [u])

/-- Embedding of petgraph `kosaraju_scc`: phase one computes a postorder of
the reversed graph over all nodes in index order; phase two runs forward
depth-first searches in decreasing finish order, each tree being one
strongly-connected component.  Components come out in the order petgraph
produces them. -/
def kosaraju_scc (g : RGraph) : List (List Nat) :=
  let n := g.nodes.length
  let finish := ((List.range n).foldl
    (fun (st : List Nat × List Nat) i =>
      let r := dfsPost (radjOf g) n st.1 i
      (r.1, st.2 ++ r.2)) ([], [])).2
  (finish.reverse.foldl
    (fun (st : List Nat × List (List Nat)) i =>
      if i ∈ st.1 then st
      else
        let r := dfsCollect (adjOf g) n st.1 i
        (r.1, st.2 ++ [r.2])) ([], [])).2

/-- Embedding of `Iterator::max_by_key` on component length: Rust's
`max_by_key` keeps the LAST element attaining the maximum. -/
def lastMaxByLen (l : List (List Nat)) : Option (List Nat) :=
  l.foldl
    (fun acc x =>
      match acc with
      | none => some x
      | some y => if x.length < y.length then some y else some x) none

/-- Node set named by a component (indices mapped through the node list),
collected into a `BTreeSet`. -/
def tokSet (g : RGraph) (comp : List Nat) : TokSet :=
  sofList tokLt (comp.filterMap (fun i => g.nodes.get? i))

/-- Embedding of `anchor_nodes` (`core/src/graph.rs`): the node set of the
component selected by `max_by_key(len)` from the Kosaraju SCC list, or the
empty set when the graph has no nodes. -/
def anchor_nodes (g : RGraph) : TokSet :=
  match lastMaxByLen (kosaraju_scc g) with
  | none => []
  | some comp => tokSet g comp

/-- Parser configuration (`Parser` struct fields; the two compute flags are
type-level in the source and correspond to the choice of `parse` overload). -/
structure Parser where
  threshold : Frac
  whites : List RegexM
  blacks : List RegexM
  symbols : List Char
  filter_alphabetic : Bool
  filter_numeric : Bool
  filter_impure : Bool

/-- Tokenizer A of the orchestrator: the user-configured symbol set. -/
def Parser.tokA (p : Parser) : TokenizerCfg := ⟨p.whites, p.blacks, p.symbols⟩

/-- ASCII punctuation set used by tokenizer B
(the characters of `!"#$%&'()*+,-./:;<=>?@[\]^_`{|}~`, code points
33-47, 58-64, 91-96, 123-126). -/
def punctSymbols : List Char :=
  (List.range 127).filterMap fun n =>
    if (33 ≤ n ∧ n ≤ 47) ∨ (58 ≤ n ∧ n ≤ 64) ∨ (91 ≤ n ∧ n ≤ 96) ∨ (123 ≤ n ∧ n ≤ 126) then
      some (Char.ofNat n)
    else none

/-- Tokenizer B of the orchestrator
(`tokenizer.new_with_symbols(ASCII punctuation)`). -/
def Parser.tokB (p : Parser) : TokenizerCfg := ⟨p.whites, p.blacks, punctSymbols⟩

/-- Filter carried by the parser. -/
def Parser.filter (p : Parser) : StaticFilter :=
  ⟨p.filter_alphabetic, p.filter_numeric, p.filter_impure⟩

/-- Edge predicate of `group_by_anchor_tokens`:
`idep.dependency(t1, t2).unwrap_or(0.0) > threshold`. -/
def connFn (r : TokenRecord) (θ : Frac) (t1 t2 : Token) : Bool :=
  fracGt ((r.dependency t1.as_str t2.as_str).getD ⟨0, 1⟩) θ

/-- Anchor-set fold over the token list: insert every `SpecialWhite`,
remove every `SpecialBlack`. -/
def applySpecials (toks : List Token) (base : TokSet) : TokSet :=
  toks.foldl
    (fun s t =>
      match t with
      | .specialWhite _ => sinsert tokLt t s
      | .specialBlack _ => serase t s
      | _ => s) base

/-- Per-message anchor set of the core parser: tokens with a recorded
occurrence feed `build_graph`, `anchor_nodes` picks the largest SCC, then
specials are applied. -/
def anchorKey (p : Parser) (r : TokenRecord) (msg : Str) : Option TokSet := do
  let toks ← tokenize p.tokA msg
  let g := build_graph (toks.filter fun t => (r.occurence t.as_str).isSome)
    (connFn r p.threshold)
  pure (applySpecials toks (anchor_nodes g))

/-- Insert one `(index, key)` observation into the accumulated cluster map
(`map.entry(key).and_modify(insert idx).or_insert({idx})`; index sets are
`BTreeSet<usize>` and indices arrive in increasing order, so appending
keeps them sorted). -/
def groupInsert (m : List (TokSet × List Nat)) (k : TokSet) (i : Nat) :
    List (TokSet × List Nat) :=
  match m with
  | [] => [(k, [i])]
  | e :: rest => if e.1 = k then (e.1, e.2 ++ [i]) :: rest else e :: groupInsert rest k i

/-- Fold a keyed index list into the cluster map. -/
def groupByKey (ps : List (Nat × TokSet)) : List (TokSet × List Nat) :=
  ps.foldl (fun m p => groupInsert m p.2 p.1) []

/-- Embedding of `group_by_anchor_tokens`: each message is keyed by its
anchor set and the keys are grouped to sets of message indices. -/
def group_by_anchor_tokens (p : Parser) (r : TokenRecord) (msgs : List Str) :
    Option (List (TokSet × List Nat)) := do
  let keyed ← msgs.enum.mapM fun q => do
    let k ← anchorKey p r q.2
    pure (q.1, k)
  pure (groupByKey keyed)

/-- Slice filter of `shared_slices` / `common_words`: special-white,
whitespace and symbolic always pass, alphabetic / numeric / impure pass by
flag, special-black never passes. -/
def sliceFilter (f : StaticFilter) : Token → Option Str
  | .specialWhite s => some s
  | .whitespace s => some s
  | .symbolic s => some s
  | .alphabetic s => if f.alphabetic then some s else none
  | .numeric s => if f.numeric then some s else none
  | .impure s => if f.impure then some s else none
  | .specialBlack _ => none

/-- Set intersection (`HashSet::intersection(..).collect()`), on the
canonical ordered representation. -/
def sinter [DecidableEq α] (s1 s2 : List α) : List α := s1.filter (fun x => x ∈ s2)

/-- Embedding of `shared_slices` (identical to the python binding's
`common_words`): intersection of the per-message retained-slice sets, empty
for an empty cluster. -/
def shared_slices (cfg : TokenizerCfg) (f : StaticFilter) (msgs : List Str) :
    Option StrSet := do
  let sets ← msgs.mapM fun m => do
    let toks ← tokenize cfg m
    pure (sofList strLt (toks.filterMap (sliceFilter f)))
  pure (match sets with
    | [] => []
    | s :: rest => rest.foldl sinter s)

/-- Placeholder literal `<*>`. -/
def placeholder : Str := ['<', '*', '>']

/-- Rendering of one message into a template by the core `templates`
function: every token maps to its text when shared, else to the
placeholder (the core version does not collapse runs). -/
def renderTemplate (common : StrSet) (toks : List Token) : Str :=
  (toks.map fun t => if t.as_str ∈ common then t.as_str else placeholder).flatten

/-- Embedding of the core `templates`: the set of distinct renderings of
the cluster's messages. -/
def templates (cfg : TokenizerCfg) (common : StrSet) (msgs : List Str) :
    Option StrSet := do
  let ls ← msgs.mapM fun m => do
    let toks ← tokenize cfg m
    pure (renderTemplate common toks)
  pure (sofList strLt ls)

/-- Lookahead test of the mask builder:
`matches!(toks.get(idx + 1), Some(Whitespace) | Some(Symbolic) | None)`. -/
def nextWsSymEom : List Token → Bool
  | [] => true
  | .whitespace _ :: _ => true
  | .symbolic _ :: _ => true
  | _ => false

/-- Recursive worker of `parameter_masks` over one token list;
the Boolean is the `should_parameterize` latch.  The source tests the
lookahead pattern twice (`matches!(..) || matches!(..)` with identical
arms); a single test is equivalent. -/
def pmGo (common : StrSet) : List Token → Bool → Str
  | [], _ => []
  | .symbolic s :: rest, latch =>
      (if s ∈ common then
        if nextWsSymEom rest then ['0']
        else if latch then ['1'] else ['0']
      else ['1']) ++ pmGo common rest latch
  | .whitespace _ :: rest, _ => '0' :: pmGo common rest false
  | .specialWhite s :: rest, latch =>
      List.replicate (byteLen s) '0' ++ pmGo common rest latch
  | .specialBlack s :: rest, latch =>
      List.replicate (byteLen s) '1' ++ pmGo common rest latch
  | t :: rest, latch =>
      if ¬ (t.as_str ∈ common) ∨ latch then
        List.replicate (byteLen t.as_str) '1' ++ pmGo common rest true
      else List.replicate (byteLen t.as_str) '0' ++ pmGo common rest latch

/-- Embedding of the core `parameter_masks`: map every cluster message to
its mask string (`HashMap` keyed by the message text). -/
def parameter_masks (cfg : TokenizerCfg) (common : StrSet) (msgs : List Str) :
    Option (List (Str × Str)) :=
  msgs.foldlM
    (fun map msg => do
      let toks ← tokenize cfg msg
      pure (ainsert map msg (pmGo common toks false))) []

/-- Result of `Parser::<Compute, Compute>::parse`: per-message cluster ids,
per-cluster template sets, and the message-to-mask table. -/
structure ParseOut where
  clus : List (Option Nat)
  temps : List StrSet
  masks : List (Str × Str)
deriving DecidableEq, Repr

/-- One step of the cluster loop in `Parser::<Compute, Compute>::parse`,
processing the cluster at (filtered) position `cid`. -/
def parseStep (p : Parser) (msgs : List Str) (st : ParseOut)
    (q : Nat × (TokSet × List Nat)) : Option ParseOut := do
  let cid := q.1
  let indices := q.2.2
  let cmsgs := indices.map fun i => msgs.getD i []
  let stok ← shared_slices p.tokB p.filter cmsgs
  let tset ← templates p.tokB stok cmsgs
  let mlist ← parameter_masks p.tokB stok cmsgs
  pure ⟨indices.foldl (fun cl i => cl.set i (some cid)) st.clus,
    st.temps.set cid tset,
    mlist.foldl (fun m kv => ainsert m kv.1 kv.2) st.masks⟩

/-- Embedding of `Parser::<Compute, Compute>::parse`: build the record and
the cluster map, then walk the non-empty clusters in order, computing
shared slices, templates and masks.  The `temps` vector is sized by the
total number of groups (`cmap.len()`), empty-anchor group included. -/
def Parser.parse (p : Parser) (msgs : List Str) : Option ParseOut := do
  let r ← TokenRecord.new p.tokA p.filter msgs
  let groups ← group_by_anchor_tokens p r msgs
  let init : ParseOut :=
    ⟨List.replicate msgs.length none, List.replicate groups.length [], []⟩
  ((groups.filter fun e => ¬ e.1 = []).enum).foldlM (parseStep p msgs) init

/-- Default parser configuration (`Parser::new`, threshold `0.5`). -/
def Parser.default : Parser := ⟨⟨1, 2⟩, [], [], [], true, false, false⟩

/-! Order and association-list facts used throughout the development. -/

theorem strLt_irrefl (s : Str) : strLt s s = false := by
  induction s with
  | nil => rfl
  | cons a as ih => simp [strLt, ih]

theorem strLt_total {a b : Str} (h : a ≠ b) : strLt a b = true ∨ strLt b a = true := by
  induction a generalizing b with
  | nil =>
    cases b with
    | nil => exact absurd rfl h
    | cons y ys => left; rfl
  | cons x xs ih =>
    cases b with
    | nil => right; rfl
    | cons y ys =>
      by_cases hxy : x.toNat < y.toNat
      · left; simp [strLt, hxy]
      · by_cases hyx : y.toNat < x.toNat
        · right; simp [strLt, hyx]
        · have hx : x = y := by
            simp only [Char.toNat] at hxy hyx
            exact Char.eq_of_val_eq (UInt32.ext (by omega))
          subst hx
          have : xs ≠ ys := fun hh => h (by rw [hh])
          rcases ih this with h1 | h1
          · left; simp [strLt, hxy, h1]
          · right; simp [strLt, hxy, hyx, h1]

theorem tokenPair_self (a : Str) : tokenPair a a = (a, a) := by
  simp [tokenPair, strLt_irrefl]

theorem tokenPair_ne {a b : Str} (h : a ≠ b) :
    (tokenPair a b).1 ≠ (tokenPair a b).2 := by
  unfold tokenPair
  split
  · exact h
  · exact fun hh => h hh.symm

theorem tokenPair_canon {a b : Str} (h : a ≠ b) :
    tokenPair (tokenPair a b).1 (tokenPair a b).2 = tokenPair a b := by
  unfold tokenPair
  split
  · next h1 => simp [h1]
  · next h1 =>
    rcases strLt_total h with h2 | h2
    · simp [h2]
    · exact absurd h2 (by simpa using h1)

theorem mem_uniqueFirstAux [DecidableEq α] (l : List α) :
    ∀ (seen : List α) (x : α), x ∈ uniqueFirstAux seen l ↔ x ∈ l ∧ x ∉ seen := by
  induction l with
  | nil => intro seen x; simp [uniqueFirstAux]
  | cons y ys ih =>
    intro seen x
    by_cases hy : y ∈ seen
    · simp only [uniqueFirstAux, if_pos hy, ih, List.mem_cons]
      constructor
      · rintro ⟨h1, h2⟩; exact ⟨Or.inr h1, h2⟩
      · rintro ⟨h1 | h1, h2⟩
        · subst h1; exact absurd hy h2
        · exact ⟨h1, h2⟩
    · simp only [uniqueFirstAux, if_neg hy, List.mem_cons, ih]
      constructor
      · rintro (h1 | ⟨h1, h2⟩)
        · subst h1; exact ⟨Or.inl rfl, hy⟩
        · exact ⟨Or.inr h1, fun hc => h2 (Or.inr hc)⟩
      · rintro ⟨h1 | h1, h2⟩
        · subst h1; exact Or.inl rfl
        · by_cases hxy : x = y
          · subst hxy; exact Or.inl rfl
          · exact Or.inr ⟨h1, fun hc => (hc.elim hxy h2)⟩

theorem nodup_uniqueFirstAux [DecidableEq α] (l : List α) :
    ∀ seen : List α, (uniqueFirstAux seen l).Nodup := by
  induction l with
  | nil => intro seen; simp [uniqueFirstAux]
  | cons y ys ih =>
    intro seen
    by_cases hy : y ∈ seen
    · simpa [uniqueFirstAux, if_pos hy] using ih seen
    · simp only [uniqueFirstAux, if_neg hy, List.nodup_cons]
      refine ⟨fun hc => ?_, ih _⟩
      exact ((mem_uniqueFirstAux ys _ y).mp hc).2 (List.mem_cons_self _ _)

theorem mem_uniqueFirst [DecidableEq α] (l : List α) (x : α) :
    x ∈ uniqueFirst l ↔ x ∈ l := by
  simp [uniqueFirst, mem_uniqueFirstAux]

theorem nodup_uniqueFirst [DecidableEq α] (l : List α) : (uniqueFirst l).Nodup :=
  nodup_uniqueFirstAux l []

theorem alookup_abump [DecidableEq κ] (m : List (κ × Nat)) (k k' : κ) :
    alookup (abump m k) k' =
      if k' = k then some ((alookup m k').getD 0 + 1) else alookup m k' := by
  induction m with
  | nil =>
    by_cases h : k' = k <;> simp [abump, alookup, h]
  | cons e rest ih =>
    obtain ⟨k0, v0⟩ := e
    by_cases h0 : k = k0
    · subst h0
      by_cases h1 : k' = k <;> simp [abump, alookup, h1]
    · by_cases h1 : k' = k0
      · subst h1
        have h0' : ¬ (k' = k) := fun hh => h0 hh.symm
        simp [abump, if_neg h0, alookup, h0']
      · simp [abump, if_neg h0, alookup, if_neg h1, ih]

theorem cnt_foldl_abump [DecidableEq κ] (l : List κ) :
    ∀ (m : List (κ × Nat)) (k : κ),
      (alookup (l.foldl abump m) k).getD 0 = (alookup m k).getD 0 + l.count k := by
  induction l with
  | nil => intro m k; simp
  | cons x xs ih =>
    intro m k
    rw [List.foldl_cons, ih, alookup_abump]
    by_cases h : k = x
    · subst h; simp [List.count_cons_self]; omega
    · simp [if_neg h, List.count_cons_of_ne h]

/-- Values stored in a count map are strictly positive. -/
def MapPos [DecidableEq κ] (m : List (κ × Nat)) : Prop :=
  ∀ k n, alookup m k = some n → 0 < n

theorem mapPos_nil [DecidableEq κ] : MapPos ([] : List (κ × Nat)) := by
  intro k n h; simp [alookup] at h

theorem mapPos_abump [DecidableEq κ] {m : List (κ × Nat)} (h : MapPos m) (k : κ) :
    MapPos (abump m k) := by
  intro k' n hl
  rw [alookup_abump] at hl
  by_cases hk : k' = k
  · rw [if_pos hk] at hl
    injection hl with hv
    omega
  · rw [if_neg hk] at hl
    exact h k' n hl

theorem mapPos_foldl_abump [DecidableEq κ] (l : List κ) :
    ∀ m : List (κ × Nat), MapPos m → MapPos (l.foldl abump m) := by
  induction l with
  | nil => intro m h; simpa using h
  | cons x xs ih => intro m h; exact ih _ (mapPos_abump h x)

theorem alookup_none_iff_cnt_zero [DecidableEq κ] {m : List (κ × Nat)} (h : MapPos m)
    (k : κ) : alookup m k = none ↔ (alookup m k).getD 0 = 0 := by
  cases hl : alookup m k with
  | none => simp
  | some n =>
    have := h k n hl
    simp; omega

theorem strLt_asymm {a b : Str} (h : strLt a b = true) : strLt b a = false := by
  induction a generalizing b with
  | nil =>
    cases b with
    | nil => simpa [strLt] using h
    | cons y ys => rfl
  | cons x xs ih =>
    cases b with
    | nil => simp [strLt] at h
    | cons y ys =>
      by_cases h1 : x.toNat < y.toNat
      · simp [strLt, h1, Nat.lt_asymm h1]
      · by_cases h2 : y.toNat < x.toNat
        · simp [strLt, h1, h2] at h
        · simp only [strLt, if_neg h1, if_neg h2] at h ⊢
          exact ih h

theorem strLt_eq_of_not_lt {a b : Str} (h1 : strLt a b = false)
    (h2 : strLt b a = false) : a = b := by
  by_contra hne
  rcases strLt_total hne with h | h
  · rw [h] at h1; cases h1
  · rw [h] at h2; cases h2

theorem tokenPair_comm (a b : Str) : tokenPair a b = tokenPair b a := by
  unfold tokenPair
  by_cases h1 : strLt b a = true
  · simp [h1, strLt_asymm h1]
  · by_cases h2 : strLt a b = true
    · simp [h1, h2]
    · have : a = b := strLt_eq_of_not_lt (by simpa using h2) (by simpa using h1)
      subst this
      simp

theorem tokenPair_eq_iff {x y a b : Str} (hxy : x ≠ y) (hab : a ≠ b) :
    tokenPair x y = tokenPair a b ↔ (x = a ∧ y = b) ∨ (x = b ∧ y = a) := by
  constructor
  · intro h
    unfold tokenPair at h
    by_cases h1 : strLt y x = true <;> by_cases h2 : strLt b a = true <;>
      simp only [h1, h2, if_pos, if_neg, if_true, if_false, Bool.false_eq_true,
        Prod.mk.injEq] at h
    · exact Or.inl h
    · exact Or.inr ⟨h.1, h.2⟩
    · exact Or.inr ⟨h.2, h.1⟩
    · exact Or.inl ⟨h.2, h.1⟩
  · rintro (⟨h1, h2⟩ | ⟨h1, h2⟩)
    · rw [h1, h2]
    · rw [h1, h2]; exact tokenPair_comm b a

theorem comb2_ne {l : List α} (h : l.Nodup) : ∀ p ∈ comb2 l, p.1 ≠ p.2 := by
  induction l with
  | nil => intro p hp; simp [comb2] at hp
  | cons x xs ih =>
    rw [List.nodup_cons] at h
    intro p hp
    rw [comb2, List.mem_append] at hp
    rcases hp with hp | hp
    · rw [List.mem_map] at hp
      obtain ⟨y, hy, hpy⟩ := hp
      subst hpy
      intro hc
      simp only at hc
      exact h.1 (hc ▸ hy)
    · exact ih h.2 p hp

theorem count_map_eq_countP [DecidableEq β] (l : List α) (g : α → β) (k : β) :
    (l.map g).count k = l.countP (fun x => decide (g x = k)) := by
  induction l with
  | nil => rfl
  | cons x xs ih =>
    by_cases h : g x = k
    · simp [List.count_cons, List.countP_cons, h, ih]
    · simp [List.count_cons, List.countP_cons, h, ih]

theorem countP_eq_count [DecidableEq α] (l : List α) (b : α) :
    l.countP (fun y => decide (y = b)) = l.count b := by
  induction l with
  | nil => rfl
  | cons x xs ih =>
    by_cases h : x = b
    · simp [List.count_cons, List.countP_cons, h, ih]
    · simp [List.count_cons, List.countP_cons, h, ih]

theorem count_nodup_mem [DecidableEq α] {l : List α} (hn : l.Nodup) (a : α) :
    l.count a = if a ∈ l then 1 else 0 := by
  by_cases h : a ∈ l
  · rw [if_pos h]
    exact List.count_eq_one_of_mem hn h
  · rw [if_neg h]
    exact List.count_eq_zero_of_not_mem h

theorem countP_nodup_mem [DecidableEq α] {l : List α} (hn : l.Nodup) (b : α) :
    l.countP (fun y => decide (y = b)) = if b ∈ l then 1 else 0 := by
  rw [countP_eq_count, count_nodup_mem hn]

theorem cnt_foldl_abump_key [DecidableEq κ] (g : α → κ) (l : List α) :
    ∀ (m : List (κ × Nat)) (k : κ),
      (alookup (l.foldl (fun m x => abump m (g x)) m) k).getD 0 =
        (alookup m k).getD 0 + l.countP (fun x => decide (g x = k)) := by
  induction l with
  | nil => intro m k; simp
  | cons x xs ih =>
    intro m k
    rw [List.foldl_cons, ih, alookup_abump, List.countP_cons]
    by_cases h : g x = k
    · have hk : k = g x := h.symm
      rw [if_pos hk]
      simp [h]
      omega
    · have hk : ¬ (k = g x) := fun hh => h hh.symm
      rw [if_neg hk]
      simp [h]

theorem comb2_pair_countP {ts : List Str} (hn : ts.Nodup) {a b : Str} (hab : a ≠ b) :
    (comb2 ts).countP (fun p => decide (tokenPair p.1 p.2 = tokenPair a b)) =
      if a ∈ ts ∧ b ∈ ts then 1 else 0 := by
  induction ts with
  | nil => simp [comb2]
  | cons x xs ih =>
    rw [List.nodup_cons] at hn
    rw [comb2, List.countP_append, ih hn.2, List.countP_map]
    have hcomp : ((fun p : Str × Str => decide (tokenPair p.1 p.2 = tokenPair a b)) ∘
        (fun y => (x, y))) = fun y => decide (tokenPair x y = tokenPair a b) := rfl
    rw [hcomp]
    by_cases hxa : x = a
    · subst hxa
      have hcong : xs.countP (fun y => decide (tokenPair x y = tokenPair x b)) =
          xs.countP (fun y => decide (y = b)) := by
        apply List.countP_congr
        intro y hy
        have hxy : x ≠ y := fun hh => hn.1 (hh ▸ hy)
        simp only [decide_eq_true_eq]
        rw [tokenPair_eq_iff hxy hab]
        constructor
        · rintro (⟨_, h2⟩ | ⟨h1, _⟩)
          · exact h2
          · exact absurd h1 hab
        · intro h; exact Or.inl ⟨rfl, h⟩
      rw [hcong, countP_nodup_mem hn.2]
      have hbx : ¬ (b = x) := fun hh => hab hh.symm
      by_cases hbxs : b ∈ xs <;> simp [hbxs, hn.1, List.mem_cons, hbx]
    · by_cases hxb : x = b
      · subst hxb
        have hcong : xs.countP (fun y => decide (tokenPair x y = tokenPair a x)) =
            xs.countP (fun y => decide (y = a)) := by
          apply List.countP_congr
          intro y hy
          have hxy : x ≠ y := fun hh => hn.1 (hh ▸ hy)
          simp only [decide_eq_true_eq]
          rw [tokenPair_eq_iff hxy hab]
          constructor
          · rintro (⟨h1, _⟩ | ⟨_, h2⟩)
            · exact absurd h1 hxa
            · exact h2
          · intro h; exact Or.inr ⟨rfl, h⟩
        rw [hcong, countP_nodup_mem hn.2]
        have hax : ¬ (a = x) := fun hh => hxa hh.symm
        by_cases haxs : a ∈ xs <;> simp [haxs, hn.1, List.mem_cons, hax]
      · have hcong : xs.countP (fun y => decide (tokenPair x y = tokenPair a b)) = 0 := by
          rw [List.countP_eq_zero]
          intro y hy
          have hxy : x ≠ y := fun hh => hn.1 (hh ▸ hy)
          simp only [decide_eq_true_eq]
          rw [tokenPair_eq_iff hxy hab]
          rintro (⟨h1, _⟩ | ⟨h1, _⟩)
          · exact hxa h1
          · exact hxb h1
        rw [hcong]
        have hax : ¬ (a = x) := fun hh => hxa hh.symm
        have hbx : ¬ (b = x) := fun hh => hxb hh.symm
        simp [List.mem_cons, hax, hbx]

theorem cnt_foldl_abump_self [DecidableEq κ] (l : List κ) :
    ∀ (m : List (κ × Nat)) (k : κ),
      (alookup (l.foldl abump m) k).getD 0 =
        (alookup m k).getD 0 + l.countP (fun x => decide (x = k)) := by
  induction l with
  | nil => intro m k; simp
  | cons x xs ih =>
    intro m k
    rw [List.foldl_cons, ih, alookup_abump, List.countP_cons]
    by_cases h : x = k
    · have hk : k = x := h.symm
      rw [if_pos hk]
      simp [h]
      omega
    · have hk : ¬ (k = x) := fun hh => h hh.symm
      rw [if_neg hk]
      simp [h]

/-- Count stored for text `t` (0 when absent). -/
def socCnt (r : TokenRecord) (t : Str) : Nat := (alookup r.soc t).getD 0

/-- Count stored for pair key `k` (0 when absent). -/
def pocCnt (r : TokenRecord) (k : Str × Str) : Nat := (alookup r.poc k).getD 0

theorem recordMsg_soc (r : TokenRecord) (ts : List Str) (t : Str) :
    socCnt (recordMsg r ts) t = socCnt r t + ts.countP (fun x => decide (x = t)) := by
  unfold socCnt recordMsg
  exact cnt_foldl_abump_self ts r.soc t

theorem recordMsg_poc (r : TokenRecord) {ts : List Str} (hn : ts.Nodup)
    {a b : Str} (hab : a ≠ b) :
    pocCnt (recordMsg r ts) (tokenPair a b) =
      pocCnt r (tokenPair a b) + (if a ∈ ts ∧ b ∈ ts then 1 else 0) := by
  unfold pocCnt recordMsg
  rw [cnt_foldl_abump_key (fun p => tokenPair p.1 p.2) (comb2 ts) r.poc,
    comb2_pair_countP hn hab]

theorem msgTexts_nodup {cfg : TokenizerCfg} {f : StaticFilter} {msg : Str}
    {ts : List Str} (h : msgTexts cfg f msg = some ts) : ts.Nodup := by
  unfold msgTexts at h
  cases htok : tokenize cfg msg with
  | none => rw [htok] at h; cases h
  | some toks =>
    rw [htok] at h
    simp only [Option.bind_eq_bind, Option.some_bind, Option.pure_def,
      Option.some.injEq] at h
    rw [← h]
    exact nodup_uniqueFirst _

/-- Key structural lemma for the record: after folding a message list, each
single count is the number of processed messages whose text set holds the
text, and each pair count the number holding both texts. -/
theorem record_build_char (cfg : TokenizerCfg) (f : StaticFilter) :
    ∀ (msgs : List Str) (r0 r : TokenRecord) (tss : List (List Str)),
      msgs.foldlM (recordStep cfg f) r0 = some r →
      msgs.mapM (msgTexts cfg f) = some tss →
      (∀ t, socCnt r t = socCnt r0 t + tss.countP (fun ts => decide (t ∈ ts))) ∧
      (∀ a b, a ≠ b → pocCnt r (tokenPair a b) =
        pocCnt r0 (tokenPair a b) + tss.countP (fun ts => decide (a ∈ ts ∧ b ∈ ts))) := by
  intro msgs
  induction msgs with
  | nil =>
    intro r0 r tss h1 h2
    simp only [List.foldlM_nil, Option.pure_def, Option.some.injEq] at h1
    simp only [List.mapM_nil, Option.pure_def, Option.some.injEq] at h2
    subst h1; subst h2
    constructor
    · intro t; simp
    · intro a b _; simp
  | cons msg rest ih =>
    intro r0 r tss h1 h2
    rw [List.foldlM_cons] at h1
    rw [List.mapM_cons] at h2
    cases hts : msgTexts cfg f msg with
    | none =>
      unfold recordStep at h1
      rw [hts] at h2
      simp at h2
    | some ts0 =>
      have hstep : recordStep cfg f r0 msg = some (recordMsg r0 ts0) := by
        unfold recordStep
        rw [hts]
        rfl
      rw [hstep] at h1
      rw [hts] at h2
      cases htss : rest.mapM (msgTexts cfg f) with
      | none => rw [htss] at h2; simp at h2
      | some tss' =>
        rw [htss] at h2
        simp only [Option.pure_def, Option.bind_eq_bind, Option.some_bind,
          Option.some.injEq] at h1 h2
        subst h2
        obtain ⟨hsoc, hpoc⟩ := ih (recordMsg r0 ts0) r tss' h1 htss
        have hn0 : ts0.Nodup := msgTexts_nodup hts
        constructor
        · intro t
          rw [hsoc t, recordMsg_soc, List.countP_cons, countP_nodup_mem hn0]
          by_cases hm : t ∈ ts0 <;> simp [hm] <;> omega
        · intro a b hab
          rw [hpoc a b hab, recordMsg_poc r0 hn0 hab, List.countP_cons]
          by_cases hm : a ∈ ts0 ∧ b ∈ ts0 <;> simp [hm] <;> omega

theorem mapPos_foldl_abump_key [DecidableEq κ] (g : α → κ) (l : List α) :
    ∀ m : List (κ × Nat), MapPos m → MapPos (l.foldl (fun m x => abump m (g x)) m) := by
  induction l with
  | nil => intro m h; simpa using h
  | cons x xs ih => intro m h; exact ih _ (mapPos_abump h (g x))

/-- Keys of the pair map are canonical pairs of distinct texts. -/
def PocWF (m : List ((Str × Str) × Nat)) : Prop :=
  ∀ k v, alookup m k = some v → k.1 ≠ k.2 ∧ tokenPair k.1 k.2 = k

theorem pocWF_foldl_pairs :
    ∀ (ps : List (Str × Str)), (∀ p ∈ ps, p.1 ≠ p.2) →
      ∀ m, PocWF m → PocWF (ps.foldl (fun m p => abump m (tokenPair p.1 p.2)) m) := by
  intro ps
  induction ps with
  | nil => intro _ m h; simpa using h
  | cons p ps ih =>
    intro hps m h
    rw [List.foldl_cons]
    refine ih (fun q hq => hps q (List.mem_cons_of_mem _ hq)) _ ?_
    intro k v hl
    rw [alookup_abump] at hl
    by_cases hk : k = tokenPair p.1 p.2
    · subst hk
      have hne : p.1 ≠ p.2 := hps p (List.mem_cons_self _ _)
      exact ⟨tokenPair_ne hne, tokenPair_canon hne⟩
    · rw [if_neg hk] at hl
      exact h k v hl

theorem pocWF_foldl {ts : List Str} (hn : ts.Nodup) :
    ∀ m, PocWF m → PocWF ((comb2 ts).foldl (fun m p => abump m (tokenPair p.1 p.2)) m) :=
  pocWF_foldl_pairs (comb2 ts) (comb2_ne hn)

/-- Well-formedness of a built record: positive counts and canonical,
off-diagonal pair keys. -/
theorem record_build_wf (cfg : TokenizerCfg) (f : StaticFilter) :
    ∀ (msgs : List Str) (r0 r : TokenRecord),
      msgs.foldlM (recordStep cfg f) r0 = some r →
      MapPos r0.soc → MapPos r0.poc → PocWF r0.poc →
      MapPos r.soc ∧ MapPos r.poc ∧ PocWF r.poc := by
  intro msgs
  induction msgs with
  | nil =>
    intro r0 r h1 hs hp hw
    simp only [List.foldlM_nil, Option.pure_def, Option.some.injEq] at h1
    subst h1
    exact ⟨hs, hp, hw⟩
  | cons msg rest ih =>
    intro r0 r h1 hs hp hw
    rw [List.foldlM_cons] at h1
    cases hts : msgTexts cfg f msg with
    | none =>
      have hstep : recordStep cfg f r0 msg = none := by
        unfold recordStep; rw [hts]; rfl
      rw [hstep] at h1
      simp at h1
    | some ts0 =>
      have hstep : recordStep cfg f r0 msg = some (recordMsg r0 ts0) := by
        unfold recordStep; rw [hts]; rfl
      rw [hstep] at h1
      simp only [Option.pure_def, Option.bind_eq_bind, Option.some_bind] at h1
      have hn0 : ts0.Nodup := msgTexts_nodup hts
      refine ih (recordMsg r0 ts0) r h1 ?_ ?_ ?_
      · exact mapPos_foldl_abump ts0 r0.soc hs
      · exact mapPos_foldl_abump_key (fun p => tokenPair p.1 p.2) (comb2 ts0) r0.poc hp
      · exact pocWF_foldl hn0 r0.poc hw

theorem pocWF_nil : PocWF [] := by
  intro k v h; simp [alookup] at h

/-- Property of the built record: the diagonal dependency is always
undefined, because the pair map never holds a key with equal components. -/
theorem dependency_diag {cfg : TokenizerCfg} {f : StaticFilter} {msgs : List Str}
    {r : TokenRecord} (h : TokenRecord.new cfg f msgs = some r) (a : Str) :
    r.dependency a a = none := by
  obtain ⟨_, _, hw⟩ := record_build_wf cfg f msgs ⟨[], []⟩ r h mapPos_nil mapPos_nil pocWF_nil
  unfold TokenRecord.dependency
  rw [tokenPair_self]
  cases hl : alookup r.poc (a, a) with
  | none => rfl
  | some v =>
    have := (hw _ _ hl).1
    simp at this

/-- Characterization of `TokenRecord::new`: single counts count the
messages containing the text, pair counts the messages containing both. -/
theorem record_char {cfg : TokenizerCfg} {f : StaticFilter} {msgs : List Str}
    {r : TokenRecord} {tss : List (List Str)}
    (hr : TokenRecord.new cfg f msgs = some r)
    (hts : msgs.mapM (msgTexts cfg f) = some tss) :
    (∀ t, socCnt r t = tss.countP (fun ts => decide (t ∈ ts))) ∧
    (∀ a b, a ≠ b → pocCnt r (tokenPair a b) =
      tss.countP (fun ts => decide (a ∈ ts ∧ b ∈ ts))) := by
  obtain ⟨h1, h2⟩ := record_build_char cfg f msgs ⟨[], []⟩ r tss hr hts
  constructor
  · intro t
    have := h1 t
    simpa [socCnt, alookup] using this
  · intro a b hab
    have := h2 a b hab
    simpa [pocCnt, alookup] using this

theorem record_wf {cfg : TokenizerCfg} {f : StaticFilter} {msgs : List Str}
    {r : TokenRecord} (hr : TokenRecord.new cfg f msgs = some r) :
    MapPos r.soc ∧ MapPos r.poc ∧ PocWF r.poc :=
  record_build_wf cfg f msgs ⟨[], []⟩ r hr mapPos_nil mapPos_nil pocWF_nil

theorem countP_mono_of_imp (l : List α) (p q : α → Bool)
    (h : ∀ x ∈ l, p x = true → q x = true) : l.countP p ≤ l.countP q := by
  induction l with
  | nil => simp
  | cons x xs ih =>
    rw [List.countP_cons, List.countP_cons]
    have hx := h x (List.mem_cons_self _ _)
    have hxs := ih (fun y hy => h y (List.mem_cons_of_mem _ hy))
    by_cases hp : p x = true
    · simp [hp, hx hp]; omega
    · simp only [Bool.not_eq_true] at hp
      simp [hp]
      omega

/-- Pair counts never exceed either single count, and they are positive;
hence both single lookups succeed with values dominating the pair value. -/
theorem poc_le_soc {cfg : TokenizerCfg} {f : StaticFilter} {msgs : List Str}
    {r : TokenRecord} {tss : List (List Str)}
    (hr : TokenRecord.new cfg f msgs = some r)
    (hts : msgs.mapM (msgTexts cfg f) = some tss) :
    ∀ k n, alookup r.poc k = some n →
      (∃ s, alookup r.soc k.1 = some s ∧ n ≤ s) ∧
      (∃ s, alookup r.soc k.2 = some s ∧ n ≤ s) := by
  intro k n hl
  obtain ⟨hsoc, hpoc⟩ := record_char hr hts
  obtain ⟨hposS, hposP, hwf⟩ := record_wf hr
  obtain ⟨hne, hcanon⟩ := hwf k n hl
  have hn : pocCnt r k = n := by simp [pocCnt, hl]
  have hcnt : pocCnt r (tokenPair k.1 k.2) =
      tss.countP (fun ts => decide (k.1 ∈ ts ∧ k.2 ∈ ts)) := hpoc k.1 k.2 hne
  rw [hcanon, hn] at hcnt
  have hpos : 0 < n := hposP k n hl
  constructor
  · have hle : n ≤ socCnt r k.1 := by
      rw [hsoc k.1, hcnt]
      exact countP_mono_of_imp _ _ _ (fun ts _ h => by
        simp only [decide_eq_true_eq] at h ⊢
        exact h.1)
    cases hs : alookup r.soc k.1 with
    | none =>
      exfalso
      have : socCnt r k.1 = 0 := by simp [socCnt, hs]
      omega
    | some s =>
      refine ⟨s, rfl, ?_⟩
      have : socCnt r k.1 = s := by simp [socCnt, hs]
      omega
  · have hle : n ≤ socCnt r k.2 := by
      rw [hsoc k.2, hcnt]
      exact countP_mono_of_imp _ _ _ (fun ts _ h => by
        simp only [decide_eq_true_eq] at h ⊢
        exact h.2)
    cases hs : alookup r.soc k.2 with
    | none =>
      exfalso
      have : socCnt r k.2 = 0 := by simp [socCnt, hs]
      omega
    | some s =>
      refine ⟨s, rfl, ?_⟩
      have : socCnt r k.2 = s := by simp [socCnt, hs]
      omega

/-- Every defined dependency value lies in the unit interval. -/
theorem dependency_mem_unit {cfg : TokenizerCfg} {f : StaticFilter} {msgs : List Str}
    {r : TokenRecord} {tss : List (List Str)}
    (hr : TokenRecord.new cfg f msgs = some r)
    (hts : msgs.mapM (msgTexts cfg f) = some tss)
    {a b : Str} {q : Frac} (hd : r.dependency a b = some q) :
    0 ≤ q.toRat ∧ q.toRat ≤ 1 := by
  unfold TokenRecord.dependency at hd
  cases hp : alookup r.poc (tokenPair a b) with
  | none => rw [hp] at hd; cases hd
  | some d =>
    rw [hp] at hd
    cases hs : alookup r.soc a with
    | none => rw [hs] at hd; cases hd
    | some s =>
      rw [hs] at hd
      simp only [Option.pure_def, Option.bind_eq_bind, Option.some_bind,
        Option.some.injEq] at hd
      subst hd
      have hne : a ≠ b := by
        intro hc
        subst hc
        rw [tokenPair_self] at hp
        exact ((record_wf hr).2.2 _ _ hp).1 rfl
      obtain ⟨hsoc, hpoc⟩ := record_char hr hts
      have hd' : pocCnt r (tokenPair a b) = d := by simp [pocCnt, hp]
      have hs' : socCnt r a = s := by simp [socCnt, hs]
      have hds : d ≤ s := by
        rw [← hd', ← hs', hsoc a, hpoc a b hne]
        exact countP_mono_of_imp _ _ _ (fun ts _ h => by
          simp only [decide_eq_true_eq] at h ⊢
          exact h.1)
      have hspos : 0 < s := (record_wf hr).1 a s hs
      unfold Frac.toRat
      constructor
      · positivity
      · rw [div_le_one (by exact_mod_cast hspos)]
        exact_mod_cast hds

/-- Slice text of a pre-token. -/
def PreToken.as_str : PreToken → Str
  | .specialWhite s => s
  | .specialBlack s => s
  | .unrefined s => s

theorem with'_as_str (symbols : List Char) (s : Str) :
    (Token.with' symbols s).as_str = s := by
  unfold Token.with'
  split_ifs <;> rfl

theorem strSlice_append_drop (msg : Str) {a b : Nat} (hab : a ≤ b) :
    strSlice msg a b ++ msg.drop b = msg.drop a := by
  unfold strSlice
  have hb : msg.drop b = (msg.drop a).drop (b - a) := by
    rw [List.drop_drop]
    congr 1
    omega
  rw [hb, List.take_append_drop]

theorem matchesWF_mono {len lo lo' : Nat} (h : lo' ≤ lo) :
    ∀ {ms : List (Nat × Nat)}, MatchesWF len lo ms → MatchesWF len lo' ms := by
  intro ms
  cases ms with
  | nil => intro _; trivial
  | cons m rest =>
    intro hwf
    obtain ⟨h1, h2, h3, h4⟩ := hwf
    exact ⟨le_trans h h1, h2, h3, h4⟩

theorem splitSpecialGo_concat (msg : Str) (mk : Str → PreToken)
    (hmk : ∀ s, (mk s).as_str = s) :
    ∀ (ms : List (Nat × Nat)) (li : Nat), MatchesWF msg.length li ms →
      ((splitSpecialGo msg mk li ms).map PreToken.as_str).flatten = msg.drop li := by
  intro ms
  induction ms with
  | nil =>
    intro li _
    by_cases h : li = msg.length
    · simp [splitSpecialGo, h, List.drop_length]
    · simp [splitSpecialGo, h, PreToken.as_str]
  | cons m rest ih =>
    intro li hwf
    obtain ⟨h1, h2, h3, h4⟩ := hwf
    by_cases hz : m.2 - m.1 > 0
    · rw [splitSpecialGo, if_pos hz]
      have htail := ih m.2 h4
      have hunref : ∀ s : Str, (PreToken.unrefined s).as_str = s := fun _ => rfl
      by_cases hs : m.1 ≠ li
      · rw [if_pos hs]
        simp only [List.map_append, List.map_cons, List.flatten_append,
          List.flatten_cons, List.map_nil, List.flatten_nil, hmk, hunref,
          htail, List.append_nil, List.nil_append]
        rw [strSlice_append_drop msg h2, strSlice_append_drop msg h1]
      · rw [if_neg hs]
        push_neg at hs
        subst hs
        simp only [List.map_cons, List.flatten_cons, hmk, htail, List.nil_append]
        rw [strSlice_append_drop msg h2]
    · rw [splitSpecialGo, if_neg hz]
      exact ih li (matchesWF_mono (by omega) h4)

theorem preStep_concat (mk : Str → PreToken) (hmk : ∀ s, (mk s).as_str = s)
    (r : RegexM) (pts : List PreToken) :
    ((preStep mk r pts).map PreToken.as_str).flatten =
      (pts.map PreToken.as_str).flatten := by
  induction pts with
  | nil => rfl
  | cons p ps ih =>
    rw [preStep, List.flatMap_cons, List.map_append, List.flatten_append]
    rw [preStep] at ih
    rw [ih, List.map_cons, List.flatten_cons]
    congr 1
    cases p with
    | unrefined s =>
      exact splitSpecialGo_concat s mk hmk (r.find s) 0 (r.wf s)
    | specialWhite s => simp [PreToken.as_str]
    | specialBlack s => simp [PreToken.as_str]

theorem pre_tokenize_concat (cfg : TokenizerCfg) (msg : Str) :
    ((pre_tokenize cfg msg).map PreToken.as_str).flatten = msg := by
  unfold pre_tokenize
  have hw : ∀ (rs : List RegexM) (mk : Str → PreToken) (hmk : ∀ s, (mk s).as_str = s)
      (pts : List PreToken),
      ((rs.foldl (fun pts r => preStep mk r pts) pts).map PreToken.as_str).flatten =
        (pts.map PreToken.as_str).flatten := by
    intro rs
    induction rs with
    | nil => intro mk hmk pts; rfl
    | cons r rs ih =>
      intro mk hmk pts
      rw [List.foldl_cons, ih mk hmk, preStep_concat mk hmk]
  rw [hw cfg.blacks PreToken.specialBlack (fun _ => rfl),
    hw cfg.whites PreToken.specialWhite (fun _ => rfl)]
  simp [PreToken.as_str]

theorem splitTokenGo_concat (symbols : List Char) :
    ∀ (rest acc : Str) (toks : List Token),
      splitTokenGo symbols acc rest = some toks →
      (toks.map Token.as_str).flatten = acc ++ rest := by
  intro rest
  induction rest with
  | nil =>
    intro acc toks h
    simp only [splitTokenGo, Option.some.injEq] at h
    subst h
    cases acc with
    | nil => rfl
    | cons a as =>
      simp [with'_as_str]
  | cons c rest ih =>
    intro acc toks h
    rw [splitTokenGo] at h
    by_cases hsep : isSep symbols c = true
    · rw [if_pos hsep] at h
      by_cases hu : c.utf8Size = 1
      · rw [if_pos hu] at h
        cases htl : splitTokenGo symbols [] rest with
        | none => rw [htl] at h; cases h
        | some tl =>
          rw [htl] at h
          simp only [Option.map_some', Option.some.injEq] at h
          subst h
          have htlc := ih [] tl htl
          cases acc with
          | nil =>
            simp [with'_as_str, htlc]
          | cons a as =>
            simp [with'_as_str, htlc]
      · rw [if_neg hu] at h
        cases h
    · rw [if_neg hsep] at h
      have := ih (acc ++ [c]) toks h
      rw [this]
      simp

theorem split_token_concat (symbols : List Char) (msg : Str) (toks : List Token)
    (h : split_token symbols msg = some toks) :
    (toks.map Token.as_str).flatten = msg :=
  splitTokenGo_concat symbols msg [] toks h

theorem refineTokens_concat (symbols : List Char) :
    ∀ (pts : List PreToken) (toks : List Token),
      refineTokens symbols pts = some toks →
      (toks.map Token.as_str).flatten = (pts.map PreToken.as_str).flatten := by
  intro pts
  induction pts with
  | nil =>
    intro toks h
    simp only [refineTokens, Option.some.injEq] at h
    subst h
    rfl
  | cons p ps ih =>
    intro toks h
    cases p with
    | specialWhite s =>
      rw [refineTokens] at h
      cases hr : refineTokens symbols ps with
      | none => rw [hr] at h; cases h
      | some tl =>
        rw [hr] at h
        simp only [Option.map_some', Option.some.injEq] at h
        subst h
        simp only [List.map_cons, List.flatten_cons, ih tl hr]
        rfl
    | specialBlack s =>
      rw [refineTokens] at h
      cases hr : refineTokens symbols ps with
      | none => rw [hr] at h; cases h
      | some tl =>
        rw [hr] at h
        simp only [Option.map_some', Option.some.injEq] at h
        subst h
        simp only [List.map_cons, List.flatten_cons, ih tl hr]
        rfl
    | unrefined s =>
      rw [refineTokens] at h
      cases ha : split_token symbols s with
      | none => rw [ha] at h; simp at h
      | some a =>
        rw [ha] at h
        cases hb : refineTokens symbols ps with
        | none => rw [hb] at h; simp at h
        | some b =>
          rw [hb] at h
          simp only [Option.pure_def, Option.bind_eq_bind, Option.some_bind,
            Option.some.injEq] at h
          subst h
          rw [List.map_append, List.flatten_append, ih b hb,
            split_token_concat symbols s a ha]
          rfl

/-- The tokenizer round trip: whenever `tokenize` returns (it panics on
multi-byte separator characters), concatenating the token slices in order
reproduces the message exactly. -/
theorem tokenize_concat {cfg : TokenizerCfg} {msg : Str} {toks : List Token}
    (h : tokenize cfg msg = some toks) :
    (toks.map Token.as_str).flatten = msg := by
  unfold tokenize at h
  rw [refineTokens_concat cfg.symbols _ _ h, pre_tokenize_concat]

/-- Byte well-formedness: whitespace and symbolic tokens carry a one-byte
slice (they are produced by `split_token` only under that guard). -/
def TokenByteWF : Token → Prop
  | .whitespace s => byteLen s = 1
  | .symbolic s => byteLen s = 1
  | _ => True

theorem with'_byteWF (symbols : List Char) (s : Str) :
    TokenByteWF (Token.with' symbols s) := by
  unfold Token.with'
  split_ifs with h1 h2 h3 h4 h5 <;> simp [TokenByteWF]
  · exact h3
  · exact h3

theorem splitTokenGo_byteWF (symbols : List Char) :
    ∀ (rest acc : Str) (toks : List Token),
      splitTokenGo symbols acc rest = some toks →
      ∀ t ∈ toks, TokenByteWF t := by
  intro rest
  induction rest with
  | nil =>
    intro acc toks h t ht
    simp only [splitTokenGo, Option.some.injEq] at h
    subst h
    by_cases ha : acc.isEmpty
    · rw [if_pos ha] at ht; cases ht
    · rw [if_neg ha] at ht
      rcases List.mem_singleton.mp ht with rfl
      exact with'_byteWF symbols acc
  | cons c rest ih =>
    intro acc toks h t ht
    rw [splitTokenGo] at h
    by_cases hsep : isSep symbols c = true
    · rw [if_pos hsep] at h
      by_cases hu : c.utf8Size = 1
      · rw [if_pos hu] at h
        cases htl : splitTokenGo symbols [] rest with
        | none => rw [htl] at h; cases h
        | some tl =>
          rw [htl] at h
          simp only [Option.map_some', Option.some.injEq] at h
          subst h
          rw [List.mem_append] at ht
          rcases ht with ht | ht
          · by_cases ha : acc.isEmpty
            · rw [if_pos ha] at ht; cases ht
            · rw [if_neg ha] at ht
              rcases List.mem_singleton.mp ht with rfl
              exact with'_byteWF symbols acc
          · rcases List.mem_cons.mp ht with rfl | ht
            · exact with'_byteWF symbols [c]
            · exact ih [] tl htl t ht
      · rw [if_neg hu] at h
        cases h
    · rw [if_neg hsep] at h
      exact ih (acc ++ [c]) toks h t ht

theorem refineTokens_byteWF (symbols : List Char) :
    ∀ (pts : List PreToken) (toks : List Token),
      refineTokens symbols pts = some toks → ∀ t ∈ toks, TokenByteWF t := by
  intro pts
  induction pts with
  | nil =>
    intro toks h t ht
    simp only [refineTokens, Option.some.injEq] at h
    subst h
    cases ht
  | cons p ps ih =>
    intro toks h t ht
    cases p with
    | specialWhite s =>
      rw [refineTokens] at h
      cases hr : refineTokens symbols ps with
      | none => rw [hr] at h; cases h
      | some tl =>
        rw [hr] at h
        simp only [Option.map_some', Option.some.injEq] at h
        subst h
        rcases List.mem_cons.mp ht with rfl | ht
        · trivial
        · exact ih tl hr t ht
    | specialBlack s =>
      rw [refineTokens] at h
      cases hr : refineTokens symbols ps with
      | none => rw [hr] at h; cases h
      | some tl =>
        rw [hr] at h
        simp only [Option.map_some', Option.some.injEq] at h
        subst h
        rcases List.mem_cons.mp ht with rfl | ht
        · trivial
        · exact ih tl hr t ht
    | unrefined s =>
      rw [refineTokens] at h
      cases ha : split_token symbols s with
      | none => rw [ha] at h; simp at h
      | some a =>
        rw [ha] at h
        cases hb : refineTokens symbols ps with
        | none => rw [hb] at h; simp at h
        | some b =>
          rw [hb] at h
          simp only [Option.pure_def, Option.bind_eq_bind, Option.some_bind,
            Option.some.injEq] at h
          subst h
          rw [List.mem_append] at ht
          rcases ht with ht | ht
          · exact splitTokenGo_byteWF symbols s [] a ha t ht
          · exact ih b hb t ht

theorem tokenize_byteWF {cfg : TokenizerCfg} {msg : Str} {toks : List Token}
    (h : tokenize cfg msg = some toks) : ∀ t ∈ toks, TokenByteWF t :=
  refineTokens_byteWF cfg.symbols _ toks h

/-- Bytes emitted for one token by the mask builder. -/
def chunkLen : Token → Nat
  | .whitespace _ => 1
  | .symbolic _ => 1
  | t => byteLen t.as_str

theorem chunkLen_eq_byteLen {t : Token} (h : TokenByteWF t) :
    chunkLen t = byteLen t.as_str := by
  cases t <;> simp [chunkLen, Token.as_str]
  · exact h.symm
  · exact h.symm

theorem pmGo_length (common : StrSet) :
    ∀ (toks : List Token) (latch : Bool),
      (pmGo common toks latch).length = (toks.map chunkLen).sum := by
  intro toks
  induction toks with
  | nil => intro latch; rfl
  | cons t rest ih =>
    intro latch
    cases t with
    | symbolic s =>
      rw [pmGo]
      rw [List.length_append, ih latch]
      simp only [List.map_cons, List.sum_cons, chunkLen]
      congr 1
      split_ifs <;> rfl
    | whitespace s =>
      rw [pmGo]
      simp [ih false, chunkLen]
      omega
    | specialWhite s =>
      rw [pmGo]
      simp [ih latch, chunkLen, Token.as_str]
    | specialBlack s =>
      rw [pmGo]
      simp [ih latch, chunkLen, Token.as_str]
    | alphabetic s =>
      simp only [pmGo]
      split_ifs <;> simp [ih, chunkLen, Token.as_str] <;> omega
    | numeric s =>
      simp only [pmGo]
      split_ifs <;> simp [ih, chunkLen, Token.as_str] <;> omega
    | impure s =>
      simp only [pmGo]
      split_ifs <;> simp [ih, chunkLen, Token.as_str] <;> omega

theorem pmGo_bits (common : StrSet) :
    ∀ (toks : List Token) (latch : Bool) (c : Char),
      c ∈ pmGo common toks latch → c = '0' ∨ c = '1' := by
  intro toks
  induction toks with
  | nil => intro latch c hc; cases hc
  | cons t rest ih =>
    intro latch c hc
    cases t with
    | symbolic s =>
      rw [pmGo, List.mem_append] at hc
      rcases hc with hc | hc
      · split_ifs at hc <;> simp at hc <;> simp [hc]
      · exact ih latch c hc
    | whitespace s =>
      rw [pmGo, List.mem_cons] at hc
      rcases hc with rfl | hc
      · exact Or.inl rfl
      · exact ih false c hc
    | specialWhite s =>
      rw [pmGo, List.mem_append] at hc
      rcases hc with hc | hc
      · exact Or.inl (List.eq_of_mem_replicate hc)
      · exact ih latch c hc
    | specialBlack s =>
      rw [pmGo, List.mem_append] at hc
      rcases hc with hc | hc
      · exact Or.inr (List.eq_of_mem_replicate hc)
      · exact ih latch c hc
    | alphabetic s =>
      simp only [pmGo] at hc
      split_ifs at hc <;> rw [List.mem_append] at hc <;> rcases hc with hc | hc
      · exact Or.inr (List.eq_of_mem_replicate hc)
      · exact ih true c hc
      · exact Or.inl (List.eq_of_mem_replicate hc)
      · exact ih latch c hc
    | numeric s =>
      simp only [pmGo] at hc
      split_ifs at hc <;> rw [List.mem_append] at hc <;> rcases hc with hc | hc
      · exact Or.inr (List.eq_of_mem_replicate hc)
      · exact ih true c hc
      · exact Or.inl (List.eq_of_mem_replicate hc)
      · exact ih latch c hc
    | impure s =>
      simp only [pmGo] at hc
      split_ifs at hc <;> rw [List.mem_append] at hc <;> rcases hc with hc | hc
      · exact Or.inr (List.eq_of_mem_replicate hc)
      · exact ih true c hc
      · exact Or.inl (List.eq_of_mem_replicate hc)
      · exact ih latch c hc

theorem byteLen_append (a b : Str) : byteLen (a ++ b) = byteLen a + byteLen b := by
  unfold byteLen
  rw [List.map_append, List.sum_append]

theorem byteLen_flatten (l : List Str) :
    byteLen l.flatten = (l.map byteLen).sum := by
  induction l with
  | nil => rfl
  | cons x xs ih =>
    rw [List.flatten_cons, byteLen_append, ih, List.map_cons, List.sum_cons]

/-- Whenever tokenization succeeds, the mask built for the message has
exactly the message's byte length. -/
theorem pmGo_length_msg {cfg : TokenizerCfg} {msg : Str} {toks : List Token}
    (h : tokenize cfg msg = some toks) (common : StrSet) (latch : Bool) :
    (pmGo common toks latch).length = byteLen msg := by
  rw [pmGo_length, ← tokenize_concat h, byteLen_flatten, List.map_map]
  congr 1
  apply List.map_congr_left
  intro t ht
  exact chunkLen_eq_byteLen (tokenize_byteWF h t ht)

theorem mem_ainsert [DecidableEq κ] (m : List (κ × ν)) (k : κ) (v : ν) :
    ∀ kv ∈ ainsert m k v, kv = (k, v) ∨ kv ∈ m := by
  induction m with
  | nil => intro kv h; simpa [ainsert] using h
  | cons e rest ih =>
    intro kv h
    rw [ainsert] at h
    by_cases hk : k = e.1
    · rw [if_pos hk] at h
      rcases List.mem_cons.mp h with rfl | h
      · exact Or.inl rfl
      · exact Or.inr (List.mem_cons_of_mem _ h)
    · rw [if_neg hk] at h
      rcases List.mem_cons.mp h with rfl | h
      · exact Or.inr (List.mem_cons_self _ _)
      · rcases ih kv h with h | h
        · exact Or.inl h
        · exact Or.inr (List.mem_cons_of_mem _ h)

/-- Generic invariant preservation through an `Option`-valued left fold. -/
theorem foldlM_inv {σ β : Type _} (step : σ → β → Option σ) (P : σ → Prop)
    (l : List β) (hstep : ∀ s b s', b ∈ l → step s b = some s' → P s → P s') :
    ∀ s s', l.foldlM step s = some s' → P s → P s' := by
  induction l with
  | nil =>
    intro s s' h hp
    simp only [List.foldlM_nil, Option.pure_def, Option.some.injEq] at h
    exact h ▸ hp
  | cons b rest ih =>
    intro s s' h hp
    rw [List.foldlM_cons] at h
    cases hb : step s b with
    | none => rw [hb] at h; simp at h
    | some s1 =>
      rw [hb] at h
      simp only [Option.pure_def, Option.bind_eq_bind, Option.some_bind] at h
      exact ih (fun s b' s' hb' => hstep s b' s' (List.mem_cons_of_mem _ hb')) s1 s' h
        (hstep s b s1 (List.mem_cons_self _ _) hb hp)

/-- Mask property: the right length in bytes and only mask bytes. -/
def MaskProp (kv : Str × Str) : Prop :=
  kv.2.length = byteLen kv.1 ∧ ∀ c ∈ kv.2, c = '0' ∨ c = '1'

theorem parameter_masks_prop (cfg : TokenizerCfg) (common : StrSet) (msgs : List Str)
    (res : List (Str × Str)) (h : parameter_masks cfg common msgs = some res) :
    ∀ kv ∈ res, MaskProp kv := by
  unfold parameter_masks at h
  refine foldlM_inv _ (fun m => ∀ kv ∈ m, MaskProp kv) msgs ?_ [] res h (by simp)
  intro m msg m' _ hstep hp kv hkv
  cases htok : tokenize cfg msg with
  | none => rw [htok] at hstep; simp at hstep
  | some toks =>
    rw [htok] at hstep
    simp only [Option.pure_def, Option.bind_eq_bind, Option.some_bind,
      Option.some.injEq] at hstep
    subst hstep
    rcases mem_ainsert _ _ _ kv hkv with rfl | hkv
    · exact ⟨pmGo_length_msg htok common false, fun c hc => pmGo_bits common toks false c hc⟩
    · exact hp kv hkv

theorem foldl_ainsert_prop [DecidableEq κ] {P : κ × ν → Prop} :
    ∀ (l : List (κ × ν)) (m : List (κ × ν)), (∀ kv ∈ m, P kv) → (∀ kv ∈ l, P kv) →
      ∀ kv ∈ l.foldl (fun m kv => ainsert m kv.1 kv.2) m, P kv := by
  intro l
  induction l with
  | nil => intro m hm _ kv hkv; exact hm kv hkv
  | cons e rest ih =>
    intro m hm hl kv hkv
    rw [List.foldl_cons] at hkv
    refine ih _ ?_ (fun kv h => hl kv (List.mem_cons_of_mem _ h)) kv hkv
    intro kv h
    rcases mem_ainsert _ _ _ kv h with rfl | h
    · exact hl e (List.mem_cons_self _ _)
    · exact hm kv h

/-- C1.  For every corpus, configuration and message reaching the mask
builder, the mask stored for that message has exactly the message's byte
length, and every one of its bytes is `'0'` or `'1'`. -/
theorem claim_C1_mask_shape (p : Parser) (msgs : List Str) (out : ParseOut)
    (h : p.parse msgs = some out) :
    ∀ kv ∈ out.masks, kv.2.length = byteLen kv.1 ∧ ∀ c ∈ kv.2, c = '0' ∨ c = '1' := by
  unfold Parser.parse at h
  cases hr : TokenRecord.new p.tokA p.filter msgs with
  | none => rw [hr] at h; simp at h
  | some r =>
    rw [hr] at h
    simp only [Option.pure_def, Option.bind_eq_bind, Option.some_bind] at h
    cases hg : group_by_anchor_tokens p r msgs with
    | none => rw [hg] at h; simp at h
    | some groups =>
      rw [hg] at h
      simp only [Option.pure_def, Option.bind_eq_bind, Option.some_bind] at h
      refine foldlM_inv _ (fun st => ∀ kv ∈ st.masks, MaskProp kv) _ ?_ _ _ h (by simp)
      intro st q st' _ hstep hp
      unfold parseStep at hstep
      simp only at hstep
      cases hs : shared_slices p.tokB p.filter (q.2.2.map fun i => msgs.getD i []) with
      | none => rw [hs] at hstep; simp at hstep
      | some stok =>
        rw [hs] at hstep
        simp only [Option.pure_def, Option.bind_eq_bind, Option.some_bind] at hstep
        cases ht : templates p.tokB stok (q.2.2.map fun i => msgs.getD i []) with
        | none => rw [ht] at hstep; simp at hstep
        | some tset =>
          rw [ht] at hstep
          simp only [Option.pure_def, Option.bind_eq_bind, Option.some_bind] at hstep
          cases hml : parameter_masks p.tokB stok (q.2.2.map fun i => msgs.getD i []) with
          | none => rw [hml] at hstep; simp at hstep
          | some mlist =>
            rw [hml] at hstep
            simp only [Option.pure_def, Option.bind_eq_bind, Option.some_bind,
              Option.some.injEq] at hstep
            subst hstep
            exact foldl_ainsert_prop mlist st.masks hp
              (parameter_masks_prop _ _ _ _ hml)

theorem claim_C1_mask_shape_witness :
    (['0', '0', '0'] : Str).length = byteLen ['a', ' ', 'b'] :=
  (claim_C1_mask_shape Parser.default [['a', ' ', 'b']]
    ⟨[some 0], [[['a', ' ', 'b']]], [(['a', ' ', 'b'], ['0', '0', '0'])]⟩
    (by decide) (['a', ' ', 'b'], ['0', '0', '0']) (by decide)).1

/-- Scenario S1 corpus. -/
def msgsS1 : List Str :=
  [['a', ' ', 'x', '1', ' ', 'x', '2', ' ', 'b'],
   ['a', ' ', 'x', '2', ' ', 'b'],
   ['a', ' ', 'x', '3', ' ', 'b'],
   ['a', ' ', 'x', '4', ' ', 'b'],
   ['c', ' ', 'x', '1', ' ', 'd'],
   ['c', ' ', 'x', '2', ' ', 'd'],
   ['c', ' ', 'x', '3', ' ', 'd'],
   ['c', ' ', 'x', '4', ' ', 'd']]

/-- C2.  On the eight S1 messages under the default configuration, parsing
with templates and masks yields two clusters, indices 0..3 sharing one id
and 4..7 the other; the union of the template sets is exactly
the three templates `a <*> b`, `a <*> <*> b`, `c <*> d`; the mask of
`a x1 x2 b` is `001101100` and each other message's mask is `001100`. -/
theorem claim_C2_scenario_s1 :
    ∃ i j : Nat, i ≠ j ∧
      (Parser.default.parse msgsS1).map ParseOut.clus =
        some [some i, some i, some i, some i, some j, some j, some j, some j] ∧
      (Parser.default.parse msgsS1).map (fun r => r.temps.length) = some 2 ∧
      (Parser.default.parse msgsS1).map (fun r => sofList strLt r.temps.flatten) =
        some [['a', ' ', '<', '*', '>', ' ', '<', '*', '>', ' ', 'b'],
              ['a', ' ', '<', '*', '>', ' ', 'b'],
              ['c', ' ', '<', '*', '>', ' ', 'd']] ∧
      (Parser.default.parse msgsS1).map
          (fun r => alookup r.masks ['a', ' ', 'x', '1', ' ', 'x', '2', ' ', 'b']) =
        some (some ['0', '0', '1', '1', '0', '1', '1', '0', '0']) ∧
      (Parser.default.parse msgsS1).map
          (fun r => (msgsS1.drop 1).map (fun m => alookup r.masks m)) =
        some (List.replicate 7 (some ['0', '0', '1', '1', '0', '0'])) :=
  ⟨0, 1, by decide⟩

/-- C3.  The tokenizer round trip fails on the code: `split_token` slices
the separator as `&msg[end_idx..end_idx + 1]`, and on a message holding a
multi-byte whitespace character (here U+00A0, a two-byte no-break space
with the Unicode White_Space property) that byte range ends inside the
character, so the slicing panics and no token sequence is produced at all,
contradicting the specified total round trip. -/
theorem claim_C3_roundtrip_panic :
    tokenize ⟨[], [], []⟩ ['a', Char.ofNat 0xA0, 'b'] = none := by decide

/-- C4 counterexample.  On the corpus `["a"]` the text `a` occurs
(`occurence` is present), yet `dependency(a, a)` is absent rather than 1:
the pair map holds no diagonal key, so the first lookup in `dependency`
fails. -/
theorem claim_C4_counterexample :
    TokenRecord.new Parser.default.tokA Parser.default.filter [[ 'a' ]] =
      some ⟨[(['a'], 1)], []⟩ ∧
    TokenRecord.occurence ⟨[(['a'], 1)], []⟩ ['a'] = some 1 ∧
    TokenRecord.dependency ⟨[(['a'], 1)], []⟩ ['a'] ['a'] = none := by decide

/-- C4 (amended).  Every defined dependency value lies in `[0, 1]`; but the
diagonal `dependency(a, a)` is always undefined (the pair map has no
diagonal keys), even when `a` occurs in a message. -/
theorem claim_C4_dependency_range (cfg : TokenizerCfg) (f : StaticFilter)
    (msgs : List Str) (r : TokenRecord) (tss : List (List Str))
    (hr : TokenRecord.new cfg f msgs = some r)
    (hts : msgs.mapM (msgTexts cfg f) = some tss) :
    (∀ a b q, r.dependency a b = some q → 0 ≤ q.toRat ∧ q.toRat ≤ 1) ∧
    (∀ a, r.dependency a a = none) :=
  ⟨fun _ _ _ hd => dependency_mem_unit hr hts hd, dependency_diag hr⟩

theorem claim_C4_dependency_range_witness :
    (0 : ℚ) ≤ (Frac.mk 1 1).toRat ∧ (Frac.mk 1 1).toRat ≤ 1 :=
  (claim_C4_dependency_range Parser.default.tokA Parser.default.filter
    [['a', ' ', 'b']] ⟨[(['a'], 1), (['b'], 1)], [((['b'], ['a']), 1)]⟩
    [[['a'], ['b']]] (by decide) (by decide)).1 ['a'] ['b'] ⟨1, 1⟩ (by decide)

/-- C8.  In the built record every pair count is dominated by both single
counts (which are present), and counts are per-message: the single count
of a text is the number of messages whose deduplicated filtered text set
holds it, and the pair count of two distinct texts the number of messages
holding both. -/
theorem claim_C8_record_invariant (cfg : TokenizerCfg) (f : StaticFilter)
    (msgs : List Str) (r : TokenRecord) (tss : List (List Str))
    (hr : TokenRecord.new cfg f msgs = some r)
    (hts : msgs.mapM (msgTexts cfg f) = some tss) :
    (∀ k n, alookup r.poc k = some n →
      (∃ s, alookup r.soc k.1 = some s ∧ n ≤ s) ∧
      (∃ s, alookup r.soc k.2 = some s ∧ n ≤ s)) ∧
    (∀ t, (alookup r.soc t).getD 0 = tss.countP (fun ts => decide (t ∈ ts))) ∧
    (∀ a b, a ≠ b → (alookup r.poc (tokenPair a b)).getD 0 =
      tss.countP (fun ts => decide (a ∈ ts ∧ b ∈ ts))) :=
  ⟨poc_le_soc hr hts, (record_char hr hts).1, (record_char hr hts).2⟩

theorem claim_C8_record_invariant_witness :
    (alookup (TokenRecord.mk [(['a'], 1), (['b'], 1)] [((['b'], ['a']), 1)]).soc
      ['a']).getD 0 =
      ([[['a'], ['b']]] : List (List Str)).countP (fun ts => decide (['a'] ∈ ts)) :=
  (claim_C8_record_invariant Parser.default.tokA Parser.default.filter
    [['a', ' ', 'b']] ⟨[(['a'], 1), (['b'], 1)], [((['b'], ['a']), 1)]⟩
    [[['a'], ['b']]] (by decide) (by decide)).2.1 ['a']

theorem build_graph_edge_conn (toks : List Token) (conn : Token → Token → Bool) :
    ∀ e ∈ (build_graph toks conn).edges,
      conn ((build_graph toks conn).nodes.getD e.1 default)
        ((build_graph toks conn).nodes.getD e.2 default) = true := by
  unfold build_graph
  simp only
  generalize comb2 (List.range (uniqueFirst toks).length) = ps
  have hgen : ∀ (ps : List (Nat × Nat)) (es : List (Nat × Nat)),
      (∀ e ∈ es, conn ((uniqueFirst toks).getD e.1 default)
        ((uniqueFirst toks).getD e.2 default) = true) →
      ∀ e ∈ ps.foldl (fun es p =>
          es ++ (if conn ((uniqueFirst toks).getD p.1 default)
            ((uniqueFirst toks).getD p.2 default) then [(p.1, p.2)] else []) ++
            (if conn ((uniqueFirst toks).getD p.2 default)
              ((uniqueFirst toks).getD p.1 default) then [(p.2, p.1)] else [])) es,
        conn ((uniqueFirst toks).getD e.1 default)
          ((uniqueFirst toks).getD e.2 default) = true := by
    intro ps
    induction ps with
    | nil => intro es h e he; exact h e he
    | cons p rest ih =>
      intro es h e he
      rw [List.foldl_cons] at he
      refine ih _ ?_ e he
      intro e' he'
      rw [List.mem_append, List.mem_append] at he'
      rcases he' with (he' | he') | he'
      · exact h e' he'
      · split_ifs at he' with hc
        · rcases List.mem_singleton.mp he' with rfl
          exact hc
        · cases he'
      · split_ifs at he' with hc
        · rcases List.mem_singleton.mp he' with rfl
          exact hc
        · cases he'
  exact hgen ps [] (by simp)

/-- C10.  Tokens that never co-occur in a message produce no dependency
value (both lookups are absent) and no edge in either direction in any
graph built with the record's edge predicate, for every threshold. -/
theorem claim_C10_no_edge_without_cooccurrence (cfg : TokenizerCfg)
    (f : StaticFilter) (msgs : List Str) (r : TokenRecord) (tss : List (List Str))
    (u v : Str)
    (hr : TokenRecord.new cfg f msgs = some r)
    (hts : msgs.mapM (msgTexts cfg f) = some tss)
    (hco : ∀ ts ∈ tss, ¬ (u ∈ ts ∧ v ∈ ts)) :
    r.dependency u v = none ∧ r.dependency v u = none ∧
    ∀ (toks : List Token) (θ : Frac) (i j : Nat) (ti tj : Token),
      (build_graph toks (connFn r θ)).nodes.get? i = some ti →
      (build_graph toks (connFn r θ)).nodes.get? j = some tj →
      ti.as_str = u → tj.as_str = v →
      (i, j) ∉ (build_graph toks (connFn r θ)).edges ∧
      (j, i) ∉ (build_graph toks (connFn r θ)).edges := by
  have hpair : alookup r.poc (tokenPair u v) = none := by
    cases hp : alookup r.poc (tokenPair u v) with
    | none => rfl
    | some n =>
      exfalso
      obtain ⟨hposS, hposP, hwf⟩ := record_wf hr
      have hpos : 0 < n := hposP _ _ hp
      by_cases huv : u = v
      · subst huv
        rw [tokenPair_self] at hp
        exact (hwf _ _ hp).1 rfl
      · have := (record_char hr hts).2 u v huv
        have hzero : tss.countP (fun ts => decide (u ∈ ts ∧ v ∈ ts)) = 0 := by
          rw [List.countP_eq_zero]
          intro ts hmem
          simpa using hco ts hmem
        rw [hzero] at this
        simp only [pocCnt, hp, Option.getD_some] at this
        omega
  have hdep1 : r.dependency u v = none := by
    unfold TokenRecord.dependency
    rw [hpair]
    rfl
  have hdep2 : r.dependency v u = none := by
    unfold TokenRecord.dependency
    rw [tokenPair_comm, hpair]
    rfl
  refine ⟨hdep1, hdep2, ?_⟩
  intro toks θ i j ti tj hi hj hiu hjv
  have hconn1 : connFn r θ ti tj = false := by
    unfold connFn
    rw [hiu, hjv, hdep1]
    simp [fracGt]
  have hconn2 : connFn r θ tj ti = false := by
    unfold connFn
    rw [hiu, hjv, hdep2]
    simp [fracGt]
  have hgetD_i : (build_graph toks (connFn r θ)).nodes.getD i default = ti := by
    unfold List.getD
    rw [hi]
    rfl
  have hgetD_j : (build_graph toks (connFn r θ)).nodes.getD j default = tj := by
    unfold List.getD
    rw [hj]
    rfl
  constructor
  · intro hmem
    have := build_graph_edge_conn toks (connFn r θ) (i, j) hmem
    rw [hgetD_i, hgetD_j] at this
    rw [hconn1] at this
    cases this
  · intro hmem
    have := build_graph_edge_conn toks (connFn r θ) (j, i) hmem
    rw [hgetD_j, hgetD_i] at this
    rw [hconn2] at this
    cases this

theorem claim_C10_no_edge_witness :
    TokenRecord.dependency
      ⟨[(['a'], 1), (['b'], 1), (['c'], 1), (['d'], 1)],
        [((['b'], ['a']), 1), ((['d'], ['c']), 1)]⟩ ['a'] ['c'] = none :=
  (claim_C10_no_edge_without_cooccurrence Parser.default.tokA Parser.default.filter
    [['a', ' ', 'b'], ['c', ' ', 'd']]
    ⟨[(['a'], 1), (['b'], 1), (['c'], 1), (['d'], 1)],
      [((['b'], ['a']), 1), ((['d'], ['c']), 1)]⟩
    [[['a'], ['b']], [['c'], ['d']]] ['a'] ['c'] (by decide) (by decide)
    (by decide)).1

theorem lastMaxByLen_mem :
    ∀ (l : List (List Nat)) (acc : Option (List Nat)) (res : List Nat),
      l.foldl
        (fun acc x =>
          match acc with
          | none => some x
          | some y => if x.length < y.length then some y else some x) acc = some res →
      res ∈ l ∨ acc = some res := by
  intro l
  induction l with
  | nil =>
    intro acc res h
    exact Or.inr h
  | cons x xs ih =>
    intro acc res h
    rw [List.foldl_cons] at h
    rcases ih _ res h with hm | hm
    · exact Or.inl (List.mem_cons_of_mem _ hm)
    · cases acc with
      | none =>
        simp only [Option.some.injEq] at hm
        exact Or.inl (hm ▸ List.mem_cons_self _ _)
      | some y =>
        simp only at hm
        split_ifs at hm with hc
        · exact Or.inr hm
        · simp only [Option.some.injEq] at hm
          exact Or.inl (hm ▸ List.mem_cons_self _ _)

/-- Characterization of the `max_by_key` fold: it returns the element at
the last position attaining the maximal length. -/
theorem lastMaxByLen_spec :
    ∀ (l : List (List Nat)) (i : Nat) (comp : List Nat),
      l.get? i = some comp →
      (∀ j c, l.get? j = some c → c.length ≤ comp.length) →
      (∀ j c, i < j → l.get? j = some c → c.length < comp.length) →
      lastMaxByLen l = some comp := by
  intro l
  induction l using List.reverseRecOn with
  | nil => intro i comp hi _ _; cases hi
  | append_singleton l x ih =>
    intro i comp hi hmax hlast
    unfold lastMaxByLen
    rw [List.foldl_append, List.foldl_cons, List.foldl_nil]
    by_cases hil : i < l.length
    · have hix : i < (l ++ [x]).length := by
        rw [List.length_append]
        omega
      have hi' : l.get? i = some comp := by
        rw [← List.get?_append hil]
        exact hi
      have hxlt : x.length < comp.length := by
        refine hlast l.length x (by omega) ?_
        rw [List.get?_concat_length]
      have hres : lastMaxByLen l = some comp := by
        refine ih i comp hi' ?_ ?_
        · intro j c hj
          refine hmax j c ?_
          have hjl : j < l.length := by
            by_contra hc
            rw [List.get?_eq_none.mpr (by omega)] at hj
            cases hj
          rw [List.get?_append hjl]
          exact hj
        · intro j c hij hj
          refine hlast j c hij ?_
          have hjl : j < l.length := by
            by_contra hc
            rw [List.get?_eq_none.mpr (by omega)] at hj
            cases hj
          rw [List.get?_append hjl]
          exact hj
      unfold lastMaxByLen at hres
      rw [hres]
      simp only
      rw [if_pos hxlt]
    · have hieq : i = l.length := by
        have : i < (l ++ [x]).length := by
          by_contra hc
          rw [List.get?_eq_none.mpr (by omega)] at hi
          cases hi
        rw [List.length_append] at this
        simp only [List.length_cons, List.length_nil] at this
        omega
      subst hieq
      rw [List.get?_concat_length] at hi
      injection hi with hi
      subst hi
      cases hacc : lastMaxByLen l with
      | none =>
        unfold lastMaxByLen at hacc
        rw [hacc]
      | some y =>
        unfold lastMaxByLen at hacc
        rw [hacc]
        simp only
        obtain hmem | hcontra := lastMaxByLen_mem l none y hacc
        swap
        · cases hcontra
        · obtain ⟨j, hj⟩ := List.mem_iff_get?.mp hmem
          have hyle : y.length ≤ x.length := by
            refine hmax j y ?_
            have hjl : j < l.length := by
              by_contra hc
              rw [List.get?_eq_none.mpr (by omega)] at hj
              cases hj
            rw [List.get?_append hjl]
            exact hj
          rw [if_neg (by omega)]

/-- C5 (amended).  The provisional anchor set is the node set of a
maximum-size component of the Kosaraju SCC list, and on ties the selected
component is the LAST maximal one in the list (Rust `max_by_key` keeps the
last maximum), not the first. -/
theorem claim_C5_anchor_last_max (g : RGraph) (i : Nat) (comp : List Nat)
    (hi : (kosaraju_scc g).get? i = some comp)
    (hmax : ∀ j c, (kosaraju_scc g).get? j = some c → c.length ≤ comp.length)
    (hlast : ∀ j c, i < j → (kosaraju_scc g).get? j = some c →
      c.length < comp.length) :
    anchor_nodes g = tokSet g comp := by
  unfold anchor_nodes
  rw [lastMaxByLen_spec (kosaraju_scc g) i comp hi hmax hlast]

/-- Selector written from the specification's words: the FIRST component
of maximal size encountered in the SCC list. -/
def specFirstMaxByLen (l : List (List Nat)) : Option (List Nat) :=
  l.foldl
    (fun acc x =>
      match acc with
      | none => some x
      | some y => if y.length < x.length then some x else some y) none

/-- Corpus exhibiting a tie between singleton SCCs. -/
def msgsC5 : List Str := [['a', ' ', 'b'], ['a', ' ', 'c'], ['b', ' ', 'c']]

/-- C5 counterexample.  For the first message of `msgsC5` under the default
configuration the interdependency graph has nodes `a`, `b` and no edges
(all dependencies are exactly 1/2, not above the threshold), the SCC list
is `[[b], [a]]` with a size tie, and `anchor_nodes` selects `{a}` — the
LAST maximal SCC — whereas the claim's selector (first such SCC) names
`{b}`. -/
theorem claim_C5_counterexample :
    ((TokenRecord.new Parser.default.tokA Parser.default.filter msgsC5).bind fun r =>
      (tokenize Parser.default.tokA ['a', ' ', 'b']).map fun toks =>
        let g := build_graph (toks.filter fun t => (r.occurence t.as_str).isSome)
          (connFn r Parser.default.threshold)
        (kosaraju_scc g, anchor_nodes g,
          (specFirstMaxByLen (kosaraju_scc g)).map (tokSet g))) =
      some ([[1], [0]], [Token.alphabetic ['a']], some [Token.alphabetic ['b']]) ∧
    ([Token.alphabetic ['a']] : TokSet) ≠ [Token.alphabetic ['b']] := by decide

/-- Graph with a unique maximal SCC, for the amended-claim witness. -/
def gC5W : RGraph :=
  build_graph [Token.alphabetic ['a'], Token.alphabetic ['b']] (fun _ _ => true)

theorem claim_C5_anchor_last_max_witness :
    anchor_nodes gC5W = tokSet gC5W [0, 1] := by
  refine claim_C5_anchor_last_max gC5W 0 [0, 1] (by decide) ?_ ?_
  · intro j c hj
    rw [(by decide : kosaraju_scc gC5W = [[0, 1]])] at hj
    cases j with
    | zero =>
      simp only [List.get?_cons_zero, Option.some.injEq] at hj
      rw [← hj]
    | succ n =>
      simp only [List.get?_cons_succ, List.get?_nil] at hj
      cases hj
  · intro j c hij hj
    rw [(by decide : kosaraju_scc gC5W = [[0, 1]])] at hj
    cases j with
    | zero => omega
    | succ n =>
      simp only [List.get?_cons_succ, List.get?_nil] at hj
      cases hj

/-- Bytes emitted by the mask builder for one token, given whether the next
token is whitespace / symbolic / end of message, and the latch. -/
def pmChunk (common : StrSet) (t : Token) (nextWs : Bool) (latch : Bool) : Str :=
  match t with
  | .symbolic s =>
      if s ∈ common then (if nextWs then ['0'] else if latch then ['1'] else ['0'])
      else ['1']
  | .whitespace _ => ['0']
  | .specialWhite s => List.replicate (byteLen s) '0'
  | .specialBlack s => List.replicate (byteLen s) '1'
  | t => if ¬ (t.as_str ∈ common) ∨ latch then List.replicate (byteLen t.as_str) '1'
      else List.replicate (byteLen t.as_str) '0'

/-- Latch update performed by the mask builder at one token. -/
def latchStep (common : StrSet) (latch : Bool) : Token → Bool
  | .whitespace _ => false
  | .symbolic _ => latch
  | .specialWhite _ => latch
  | .specialBlack _ => latch
  | t => if ¬ (t.as_str ∈ common) ∨ latch then true else latch

theorem pmGo_cons (common : StrSet) (t : Token) (rest : List Token) (latch : Bool) :
    pmGo common (t :: rest) latch =
      pmChunk common t (nextWsSymEom rest) latch ++
        pmGo common rest (latchStep common latch t) := by
  cases t with
  | symbolic s => rfl
  | whitespace s => rfl
  | specialWhite s => rfl
  | specialBlack s => rfl
  | alphabetic s =>
    simp only [pmGo, pmChunk, latchStep]
    split_ifs with h
    · rfl
    · have : latch = false := by
        by_contra hc
        exact h (Or.inr (by simpa using hc))
      rw [this]
  | numeric s =>
    simp only [pmGo, pmChunk, latchStep]
    split_ifs with h
    · rfl
    · have : latch = false := by
        by_contra hc
        exact h (Or.inr (by simpa using hc))
      rw [this]
  | impure s =>
    simp only [pmGo, pmChunk, latchStep]
    split_ifs with h
    · rfl
    · have : latch = false := by
        by_contra hc
        exact h (Or.inr (by simpa using hc))
      rw [this]

theorem pmChunk_length (common : StrSet) (t : Token) (nextWs latch : Bool) :
    (pmChunk common t nextWs latch).length = chunkLen t := by
  cases t <;> simp only [pmChunk, chunkLen, Token.as_str] <;>
    first
    | simp
    | (split_ifs <;> simp)

/-- Positional form of the mask rule for symbolic tokens: at the mask
position of token `i` (the sum of the preceding chunk lengths). -/
theorem pmGo_get_symbolic (common : StrSet) :
    ∀ (toks : List Token) (i : Nat) (latch : Bool) (s : Str),
      toks.get? i = some (Token.symbolic s) →
      (pmGo common toks latch).get? (((toks.take i).map chunkLen).sum) =
        some (if s ∈ common then
                (if nextWsSymEom (toks.drop (i + 1)) then '0'
                 else if (toks.take i).foldl (latchStep common) latch then '1' else '0')
              else '1') := by
  intro toks
  induction toks with
  | nil => intro i latch s hi; cases hi
  | cons t rest ih =>
    intro i latch s hi
    cases i with
    | zero =>
      simp only [List.get?_cons_zero, Option.some.injEq] at hi
      subst hi
      rw [pmGo_cons]
      simp only [List.take_zero, List.map_nil, List.sum_nil, List.foldl_nil,
        List.drop_succ_cons, List.drop_zero, pmChunk]
      split_ifs <;> simp
    | succ n =>
      simp only [List.get?_cons_succ] at hi
      rw [pmGo_cons]
      have hlen : (pmChunk common t (nextWsSymEom rest) latch).length = chunkLen t :=
        pmChunk_length common t _ _
      rw [List.take_succ_cons, List.map_cons, List.sum_cons]
      rw [List.get?_append_right (by omega)]
      rw [hlen]
      have : chunkLen t + ((rest.take n).map chunkLen).sum - chunkLen t =
          ((rest.take n).map chunkLen).sum := by omega
      rw [this]
      rw [ih n (latchStep common latch t) s hi]
      simp [List.foldl_cons]

/-- C6 (amended).  The mask byte of a symbolic token is: `'0'` when its
text is shared and the next token is whitespace, symbolic or end of
message; else `'1'` when the latch is set; else `'0'` — EXCEPT that a
symbolic token whose text is not in the shared-slice set always receives
`'1'`, latch or no latch. -/
theorem claim_C6_symbolic_mask (common : StrSet) (toks : List Token) (i : Nat)
    (s : Str) (hi : toks.get? i = some (Token.symbolic s)) :
    (pmGo common toks false).get? (((toks.take i).map chunkLen).sum) =
      some (if s ∈ common then
              (if nextWsSymEom (toks.drop (i + 1)) then '0'
               else if (toks.take i).foldl (latchStep common) false then '1' else '0')
            else '1') :=
  pmGo_get_symbolic common toks i false s hi

/-- C6 counterexample.  In `a.b` under the template tokenizer, with shared
slices `{a, b}`, the symbolic `.` at token index 1 is not shared and the
latch is clear there, yet its mask byte is `'1'` where the claim demands
`'0'`: the full mask is `010`, not `000`. -/
theorem claim_C6_counterexample :
    (tokenize Parser.default.tokB ['a', '.', 'b']).map
        (fun toks => pmGo [['a'], ['b']] toks false) = some ['0', '1', '0'] ∧
    (tokenize Parser.default.tokB ['a', '.', 'b']).map
        (fun toks => toks.get? 1) = some (some (Token.symbolic ['.'])) ∧
    (tokenize Parser.default.tokB ['a', '.', 'b']).map
        (fun toks => (toks.take 1).foldl (latchStep [['a'], ['b']]) false) =
      some false ∧
    ¬ (['.'] ∈ ([['a'], ['b']] : StrSet)) ∧
    (['0', '1', '0'] : Str).get? 1 ≠ some '0' := by decide

theorem claim_C6_symbolic_mask_witness :
    (pmGo [['a'], ['b']]
        [Token.alphabetic ['a'], Token.symbolic ['.'], Token.alphabetic ['b']]
        false).get?
        ((([Token.alphabetic ['a'], Token.symbolic ['.'],
            Token.alphabetic ['b']].take 1).map chunkLen).sum) = some '1' :=
  (claim_C6_symbolic_mask [['a'], ['b']]
    [Token.alphabetic ['a'], Token.symbolic ['.'], Token.alphabetic ['b']] 1 ['.']
    (by decide)).trans (by decide)

theorem groupInsert_pred (P : Nat × TokSet → Prop) :
    ∀ (m : List (TokSet × List Nat)) (k : TokSet) (i : Nat),
      (∀ e ∈ m, ∀ idx ∈ e.2, P (idx, e.1)) → P (i, k) →
      ∀ e ∈ groupInsert m k i, ∀ idx ∈ e.2, P (idx, e.1) := by
  intro m
  induction m with
  | nil =>
    intro k i _ hk e he idx hidx
    rcases List.mem_singleton.mp he with rfl
    rcases List.mem_singleton.mp hidx with rfl
    exact hk
  | cons e0 rest ih =>
    intro k i hm hk e he idx hidx
    rw [groupInsert] at he
    by_cases h0 : e0.1 = k
    · rw [if_pos h0] at he
      rcases List.mem_cons.mp he with rfl | he
      · rw [List.mem_append] at hidx
        rcases hidx with hidx | hidx
        · exact hm e0 (List.mem_cons_self _ _) idx hidx
        · rcases List.mem_singleton.mp hidx with rfl
          rw [h0]
          exact hk
      · exact hm e (List.mem_cons_of_mem _ he) idx hidx
    · rw [if_neg h0] at he
      rcases List.mem_cons.mp he with rfl | he
      · exact hm e (List.mem_cons_self _ _) idx hidx
      · exact ih k i (fun e' he' => hm e' (List.mem_cons_of_mem _ he')) hk e he idx hidx

theorem groupFold_pred (P : Nat × TokSet → Prop) :
    ∀ (ps : List (Nat × TokSet)) (m : List (TokSet × List Nat)),
      (∀ e ∈ m, ∀ idx ∈ e.2, P (idx, e.1)) → (∀ q ∈ ps, P q) →
      ∀ e ∈ ps.foldl (fun m p => groupInsert m p.2 p.1) m, ∀ idx ∈ e.2, P (idx, e.1) := by
  intro ps
  induction ps with
  | nil => intro m hm _ e he; exact hm e he
  | cons q rest ih =>
    intro m hm hps e he
    rw [List.foldl_cons] at he
    exact ih _ (groupInsert_pred P m q.2 q.1 hm (hps q (List.mem_cons_self _ _)))
      (fun q' hq' => hps q' (List.mem_cons_of_mem _ hq')) e he

theorem groupInsert_preserves (m : List (TokSet × List Nat)) (k : TokSet) (i : Nat)
    {k' : TokSet} {j : Nat} (h : ∃ e ∈ m, e.1 = k' ∧ j ∈ e.2) :
    ∃ e ∈ groupInsert m k i, e.1 = k' ∧ j ∈ e.2 := by
  induction m with
  | nil => obtain ⟨e, he, _⟩ := h; cases he
  | cons e0 rest ih =>
    obtain ⟨e, he, hk', hj⟩ := h
    rw [groupInsert]
    by_cases h0 : e0.1 = k
    · rw [if_pos h0]
      rcases List.mem_cons.mp he with rfl | he
      · exact ⟨(e.1, e.2 ++ [i]), List.mem_cons_self _ _, hk',
          List.mem_append.mpr (Or.inl hj)⟩
      · exact ⟨e, List.mem_cons_of_mem _ he, hk', hj⟩
    · rw [if_neg h0]
      rcases List.mem_cons.mp he with rfl | he
      · exact ⟨e, List.mem_cons_self _ _, hk', hj⟩
      · obtain ⟨e', he', h1, h2⟩ := ih ⟨e, he, hk', hj⟩
        exact ⟨e', List.mem_cons_of_mem _ he', h1, h2⟩

theorem groupInsert_adds (m : List (TokSet × List Nat)) (k : TokSet) (i : Nat) :
    ∃ e ∈ groupInsert m k i, e.1 = k ∧ i ∈ e.2 := by
  induction m with
  | nil => exact ⟨(k, [i]), List.mem_singleton.mpr rfl, rfl, List.mem_singleton.mpr rfl⟩
  | cons e0 rest ih =>
    rw [groupInsert]
    by_cases h0 : e0.1 = k
    · rw [if_pos h0]
      exact ⟨(e0.1, e0.2 ++ [i]), List.mem_cons_self _ _, h0,
        List.mem_append.mpr (Or.inr (List.mem_singleton.mpr rfl))⟩
    · rw [if_neg h0]
      obtain ⟨e, he, h1, h2⟩ := ih
      exact ⟨e, List.mem_cons_of_mem _ he, h1, h2⟩

theorem groupFold_complete :
    ∀ (ps : List (Nat × TokSet)) (m : List (TokSet × List Nat)) (i : Nat) (k : TokSet),
      ((i, k) ∈ ps ∨ ∃ e ∈ m, e.1 = k ∧ i ∈ e.2) →
      ∃ e ∈ ps.foldl (fun m p => groupInsert m p.2 p.1) m, e.1 = k ∧ i ∈ e.2 := by
  intro ps
  induction ps with
  | nil =>
    intro m i k h
    rcases h with h | h
    · cases h
    · exact h
  | cons q rest ih =>
    intro m i k h
    rw [List.foldl_cons]
    rcases h with h | h
    · rcases List.mem_cons.mp h with rfl | h
      · exact ih _ i k (Or.inr (groupInsert_adds m (i, k).2 (i, k).1))
      · exact ih _ i k (Or.inl h)
    · exact ih _ i k (Or.inr (groupInsert_preserves m q.2 q.1 h))

theorem groupInsert_keys (m : List (TokSet × List Nat)) (k : TokSet) (i : Nat) :
    (groupInsert m k i).map Prod.fst =
      if k ∈ m.map Prod.fst then m.map Prod.fst else m.map Prod.fst ++ [k] := by
  induction m with
  | nil => simp [groupInsert]
  | cons e0 rest ih =>
    rw [groupInsert]
    by_cases h0 : e0.1 = k
    · rw [if_pos h0]
      simp [h0]
    · rw [if_neg h0]
      have h0' : ¬ (k = e0.1) := fun hh => h0 hh.symm
      rw [List.map_cons, List.map_cons, ih]
      by_cases hmem : k ∈ rest.map Prod.fst
      · rw [if_pos hmem, if_pos (List.mem_cons.mpr (Or.inr hmem))]
      · rw [if_neg hmem, if_neg (fun hc => (List.mem_cons.mp hc).elim h0' hmem)]
        simp

theorem groupFold_keys_nodup :
    ∀ (ps : List (Nat × TokSet)) (m : List (TokSet × List Nat)),
      (m.map Prod.fst).Nodup →
      ((ps.foldl (fun m p => groupInsert m p.2 p.1) m).map Prod.fst).Nodup := by
  intro ps
  induction ps with
  | nil => intro m hm; exact hm
  | cons q rest ih =>
    intro m hm
    rw [List.foldl_cons]
    refine ih _ ?_
    rw [groupInsert_keys]
    by_cases hmem : q.2 ∈ m.map Prod.fst
    · rw [if_pos hmem]; exact hm
    · rw [if_neg hmem]
      exact List.nodup_append.mpr
        ⟨hm, List.nodup_singleton _, fun a ha hb => hmem ((List.mem_singleton.mp hb) ▸ ha)⟩

theorem groupByKey_keys_nodup (ps : List (Nat × TokSet)) :
    ((groupByKey ps).map Prod.fst).Nodup :=
  groupFold_keys_nodup ps [] (by simp)

theorem filter_length_split (l : List α) (q : α → Bool) :
    l.length = (l.filter q).length + (l.filter (fun x => ! q x)).length := by
  induction l with
  | nil => rfl
  | cons x xs ih =>
    by_cases h : q x = true
    · simp [List.filter_cons, h, ih]
      omega
    · simp only [Bool.not_eq_true] at h
      simp [List.filter_cons, h, ih]
      omega

theorem filter_key_len_le_one {m : List (TokSet × List Nat)}
    (hn : (m.map Prod.fst).Nodup) (k : TokSet) :
    (m.filter fun e => decide (e.1 = k)).length ≤ 1 := by
  induction m with
  | nil => simp
  | cons e0 rest ih =>
    rw [List.map_cons, List.nodup_cons] at hn
    rw [List.filter_cons]
    by_cases h0 : e0.1 = k
    · rw [if_pos (by simpa using h0)]
      have hrest : (rest.filter fun e => decide (e.1 = k)) = [] := by
        rw [List.filter_eq_nil_iff]
        intro e he
        simp only [decide_eq_true_eq]
        intro hc
        exact hn.1 (by
          rw [← h0] at hc
          exact hc ▸ List.mem_map_of_mem Prod.fst he)
      rw [hrest]
      simp
    · rw [if_neg (by simpa using h0)]
      exact ih hn.2

/-- C7 (amended).  The returned templates vector has length equal to the
TOTAL number of anchor-set groups — the empty-anchor group included when
present — rather than the number K of non-empty clusters: the total is
K plus at most one for the empty group, and every slot at position ≥ K is
left as the empty set. -/
theorem claim_C7_templates_length (p : Parser) (msgs : List Str) (r : TokenRecord)
    (groups : List (TokSet × List Nat)) (out : ParseOut)
    (hr : TokenRecord.new p.tokA p.filter msgs = some r)
    (hg : group_by_anchor_tokens p r msgs = some groups)
    (hp : p.parse msgs = some out) :
    out.temps.length = groups.length ∧
    groups.length = (groups.filter fun e => ¬ e.1 = []).length +
      (groups.filter fun e => e.1 = []).length ∧
    (groups.filter fun e => e.1 = []).length ≤ 1 ∧
    ∀ j s, (groups.filter fun e => ¬ e.1 = []).length ≤ j →
      out.temps.get? j = some s → s = [] := by
  have hnodup : (groups.map Prod.fst).Nodup := by
    unfold group_by_anchor_tokens at hg
    cases hk : msgs.enum.mapM (fun q => do
        let k ← anchorKey p r q.2
        pure (q.1, k)) with
    | none =>
      rw [hk] at hg
      simp at hg
    | some keyed =>
      rw [hk] at hg
      simp only [Option.pure_def, Option.bind_eq_bind, Option.some_bind,
        Option.some.injEq] at hg
      subst hg
      exact groupByKey_keys_nodup keyed
  have hK : groups.length = (groups.filter fun e => ¬ e.1 = []).length +
      (groups.filter fun e => e.1 = []).length := by
    have := filter_length_split groups (fun e => decide (¬ e.1 = []))
    have hcong : (groups.filter fun e => ! decide (¬ e.1 = [])) =
        (groups.filter fun e => decide (e.1 = [])) := by
      apply List.filter_congr
      intro e _
      simp
    rw [hcong] at this
    exact this
  have hle1 : (groups.filter fun e => e.1 = []).length ≤ 1 :=
    filter_key_len_le_one hnodup []
  unfold Parser.parse at hp
  rw [hr] at hp
  simp only [Option.pure_def, Option.bind_eq_bind, Option.some_bind] at hp
  rw [hg] at hp
  simp only [Option.pure_def, Option.bind_eq_bind, Option.some_bind] at hp
  have hinv := foldlM_inv (parseStep p msgs)
    (fun st => st.temps.length = groups.length ∧
      ∀ j s, (groups.filter fun e => ¬ e.1 = []).length ≤ j →
        st.temps.get? j = some s → s = []) _ ?_ _ _ hp ?_
  · exact ⟨hinv.1, hK, hle1, hinv.2⟩
  · intro st q st' hq hstep hpr
    unfold parseStep at hstep
    simp only at hstep
    cases hs : shared_slices p.tokB p.filter (q.2.2.map fun i => msgs.getD i []) with
    | none => rw [hs] at hstep; simp at hstep
    | some stok =>
      rw [hs] at hstep
      simp only [Option.pure_def, Option.bind_eq_bind, Option.some_bind] at hstep
      cases ht : templates p.tokB stok (q.2.2.map fun i => msgs.getD i []) with
      | none => rw [ht] at hstep; simp at hstep
      | some tset =>
        rw [ht] at hstep
        simp only [Option.pure_def, Option.bind_eq_bind, Option.some_bind] at hstep
        cases hml : parameter_masks p.tokB stok (q.2.2.map fun i => msgs.getD i []) with
        | none => rw [hml] at hstep; simp at hstep
        | some mlist =>
          rw [hml] at hstep
          simp only [Option.pure_def, Option.bind_eq_bind, Option.some_bind,
            Option.some.injEq] at hstep
          subst hstep
          have hqlt : q.1 < (groups.filter fun e => ¬ e.1 = []).length := by
        
            have := List.mem_enumFrom hq
            simpa using this.2.1
          constructor
          · simp only [List.length_set]
            exact hpr.1
          · intro j s hj hjs
            simp only [List.get?_set_ne _ _ (by omega : q.1 ≠ j)] at hjs
            exact hpr.2 j s hj hjs
  · constructor
    · simp
    · intro j s _ hjs
      have := List.get?_mem hjs
      rw [List.eq_of_mem_replicate this]

/-- Corpus whose third message has an empty anchor set. -/
def msgsC7 : List Str := [['a', ' ', 'b'], ['a', ' ', 'b'], ['1']]

/-- C7 counterexample.  On `msgsC7` there is exactly one non-empty cluster
(K = 1, cluster ids `[some 0, some 0, none]`), yet the returned templates
vector has length 2: the `temps` vector is sized by the total group count,
which includes the empty-anchor group. -/
theorem claim_C7_counterexample :
    (Parser.default.parse msgsC7).map (fun r => (r.clus, r.temps.length)) =
      some ([some 0, some 0, none], 2) ∧
    ((TokenRecord.new Parser.default.tokA Parser.default.filter msgsC7).bind fun r =>
      (group_by_anchor_tokens Parser.default r msgsC7).map fun gs =>
        (gs.filter fun e => ¬ e.1 = []).length) = some 1 ∧
    (2 : Nat) ≠ 1 := by decide

theorem claim_C7_templates_length_witness :
    (ParseOut.mk [some 0, some 0, none] [[['a', ' ', 'b']], []]
        [(['a', ' ', 'b'], ['0', '0', '0'])]).temps.length =
      ([([Token.alphabetic ['a'], Token.alphabetic ['b']], [0, 1]),
        ([], [2])] : List (TokSet × List Nat)).length :=
  (claim_C7_templates_length Parser.default msgsC7
    ⟨[(['a'], 2), (['b'], 2)], [((['b'], ['a']), 2)]⟩
    [([Token.alphabetic ['a'], Token.alphabetic ['b']], [0, 1]), ([], [2])]
    ⟨[some 0, some 0, none], [[['a', ' ', 'b']], []],
      [(['a', ' ', 'b'], ['0', '0', '0'])]⟩
    (by decide) (by decide) (by decide)).1

/-! Model of the python-binding crate (`src/lib.rs` and friends), which
carries its own copies of the interdependency, template and mask code. -/

/-- Binding-crate `Interdependency`: one map keyed by `BTreeSet<&str>`
(singletons for single counts, two-element sets for pair counts). -/
structure Interdep where
  occ : List (List Str × Nat)
deriving DecidableEq, Repr

/-- Canonical `BTreeSet::from([a])` key. -/
def key1 (a : Str) : List Str := [a]

/-- Canonical `BTreeSet::from([a, b])` key (ascending; collapses equals). -/
def key2 (a b : Str) : List Str :=
  if strLt a b then [a, b] else if strLt b a then [b, a] else [a]

/-- Embedding of `Interdependency::with` (sequential fold of the rayon
fold/reduce): per message, bump the singleton key of every distinct
filtered text and the two-element key of every pair. -/
def interdep_with (cfg : TokenizerCfg) (f : StaticFilter) (msgs : List Str) :
    Option Interdep :=
  if msgs.isEmpty then none else
  msgs.foldlM
    (fun d msg => do
      let ts ← msgTexts cfg f msg
      pure ⟨(comb2 ts).foldl (fun m p => abump m (key2 p.1 p.2))
        (ts.foldl (fun m t => abump m (key1 t)) d.occ)⟩) ⟨[]⟩

/-- Embedding of `Interdependency::contains`. -/
def interContains (d : Interdep) (t : Str) : Bool := (alookup d.occ (key1 t)).isSome

/-- Embedding of `Interdependency::contains_pair`. -/
def interContainsPair (d : Interdep) (a b : Str) : Bool :=
  (alookup d.occ (key2 a b)).isSome

/-- Embedding of `Interdependency::dependency` (panics in the source when
a key is absent; only called under the `contains_pair` guard). -/
def interDependency (d : Interdep) (w c : Str) : Option Frac := do
  let double ← alookup d.occ (key2 w c)
  let single ← alookup d.occ (key1 w)
  pure ⟨double, single⟩

/-- Embedding of `Interdependency::graph`: distinct recorded tokens as
nodes; for each index pair, when the pair key exists, edges in the
directions whose dependency exceeds the threshold. -/
def interGraph (d : Interdep) (toks : List Token) (θ : Frac) : RGraph :=
  let nodes := (uniqueFirst toks).filter fun t => interContains d t.as_str
  let edges := (comb2 (List.range nodes.length)).foldl
    (fun es p =>
      let t1 := nodes.getD p.1 default
      let t2 := nodes.getD p.2 default
      if interContainsPair d t1.as_str t2.as_str then
        es ++ (if fracGt ((interDependency d t1.as_str t2.as_str).getD ⟨0, 1⟩) θ then
            [(p.1, p.2)] else []) ++
          (if fracGt ((interDependency d t2.as_str t1.as_str).getD ⟨0, 1⟩) θ then
            [(p.2, p.1)] else [])
      else es) []
  ⟨nodes, edges⟩

/-- Embedding of `enumerate().max_by_key(|(_, cc)| cc.len())`: index of the
LAST component of maximal length. -/
def lastMaxIdxByLen (l : List (List Nat)) : Option Nat :=
  (l.enum.foldl
    (fun acc x =>
      match acc with
      | none => some x
      | some y => if x.2.length < y.2.length then some y else some x) none).map
    Prod.fst

/-- Embedding of the binding crate's `Interdependency::key_tokens`: union
of ALL SCCs up to and including the largest one (`scc[..=lcc_idx]`), then
special-white insertion and special-black removal. -/
def key_tokens (d : Interdep) (toks : List Token) (θ : Frac) : TokSet :=
  let g := interGraph d toks θ
  let sccs := kosaraju_scc g
  let base :=
    match lastMaxIdxByLen sccs with
    | none => ([] : TokSet)
    | some li =>
        sofList tokLt (((sccs.take (li + 1)).flatten).filterMap fun i => g.nodes.get? i)
  toks.foldl
    (fun s t =>
      match t with
      | .specialWhite _ => sinsert tokLt t s
      | .specialBlack _ => s.erase t
      | _ => s) base

/-- Embedding of the binding crate's `cluster_map`. -/
def cluster_map (cfg : TokenizerCfg) (d : Interdep) (θ : Frac) (msgs : List Str) :
    Option (List (TokSet × List Nat)) := do
  let keyed ← msgs.enum.mapM fun q => do
    let toks ← tokenize cfg q.2
    pure (q.1, key_tokens d toks θ)
  pure (groupByKey keyed)

/-- Binding-crate template rendering with run collapsing: a token maps to
its text when shared; otherwise a placeholder is pushed only when the
previous slot is not already a placeholder. -/
def collapseTemplate (common : StrSet) (toks : List Token) : List (Option Str) :=
  toks.foldl
    (fun temp t =>
      if t.as_str ∈ common then temp ++ [some t.as_str]
      else
        match temp.getLast? with
        | some none => temp
        | _ => temp ++ [none]) []

/-- Embedding of the binding crate's `templates`. -/
def py_templates (cfg : TokenizerCfg) (common : StrSet) (msgs : List Str) :
    Option StrSet := do
  let ls ← msgs.mapM fun m => do
    let toks ← tokenize cfg m
    pure (((collapseTemplate common toks).map fun o => o.getD placeholder).flatten)
  pure (sofList strLt ls)

/-- First pass of the binding crate's `parameter_masks`: one byte per slice
byte, `'0'` for shared slices and `'1'` otherwise. -/
def pyMaskRaw (common : StrSet) (toks : List Token) : Str :=
  (toks.map fun t =>
    if t.as_str ∈ common then List.replicate (byteLen t.as_str) '0'
    else List.replicate (byteLen t.as_str) '1').flatten

/-- Smoothing loop of the binding crate's `parameter_masks`:
`for idx in 1..msk_vec.len() - 2`, set `msk_vec[idx] = '1'` when both
neighbours are `'1'` and `chars[idx] != ' '`.  The bound `len - 2` is
computed in `usize`: for masks shorter than two bytes the loop runs into
out-of-bounds indexing and panics (`none`), and `chars[idx]` panics when
the character index leaves the character list. -/
def smoothStep (chars : Str) (mk : Str) (idx : Nat) : Option Str :=
  if (mk.get? (idx - 1)).getD 'x' = '1' ∧ (mk.get? (idx + 1)).getD 'x' = '1' then
    match chars.get? idx with
    | none => none
    | some ch => some (if ch ≠ ' ' then mk.set idx '1' else mk)
  else some mk

def smooth (chars mask : Str) : Option Str :=
  if mask.length < 2 then none
  else (List.range' 1 (mask.length - 2 - 1)).foldlM (smoothStep chars) mask

/-- Embedding of the binding crate's `parameter_masks`. -/
def py_parameter_masks (cfg : TokenizerCfg) (common : StrSet) (msgs : List Str) :
    Option (List (Str × Str)) :=
  msgs.foldlM
    (fun map msg => do
      let toks ← tokenize cfg msg
      let mk ← smooth msg (pyMaskRaw common toks)
      pure (ainsert map msg mk)) []

/-- Output-selection flags of `token_independency_clusters`. -/
structure Comps where
  template : Bool
  mask : Bool
deriving DecidableEq, Repr

/-- Mutable state of the binding crate's cluster loop. -/
structure TicState where
  clus : List (Option Nat)
  maskv : List Str
  tempv : List StrSet
deriving DecidableEq

/-- One iteration of the cluster loop in `token_independency_clusters`. -/
def tic_step (cfg : TokenizerCfg) (f : StaticFilter) (comps : Comps)
    (msgs : List Str) (st : TicState) (q : Nat × (TokSet × List Nat)) :
    Option TicState := do
  let cid := q.1
  let indices := q.2.2
  let cmsgs := indices.map fun i => msgs.getD i []
  let st1 ←
    if comps.mask || comps.template then do
      let cw ← shared_slices cfg f cmsgs
      let tempv ←
        if comps.template then do
          let t ← py_templates cfg cw cmsgs
          pure (st.tempv.set cid t)
        else pure st.tempv
      let cm ←
        if comps.mask then do
          let mm ← py_parameter_masks cfg cw cmsgs
          indices.foldlM
            (fun (cm : List (Option Nat) × List Str) idx => do
              let v ← alookup mm (msgs.getD idx [])
              pure (cm.1.set idx (some cid), cm.2.set idx v)) (st.clus, st.maskv)
        else pure (st.clus, st.maskv)
      pure (⟨cm.1, cm.2, tempv⟩ : TicState)
    else pure st
  pure (if comps.mask then st1
    else { st1 with clus := indices.foldl (fun c i => c.set i (some cid)) st1.clus })

/-- Embedding of the binding crate's `token_independency_clusters` (the
`PyResult` wrapper dropped): cluster ids, parameter masks and templates.
Messages in the empty-anchor group receive an all-`'0'` mask of their byte
length before the cluster loop runs. -/
def token_independency_clusters (msgs : List Str) (θ : Frac)
    (whites blacks : List RegexM) (symbols : List Char) (f : StaticFilter)
    (comps : Comps) : Option (List (Option Nat) × List Str × List StrSet) := do
  let cfg : TokenizerCfg := ⟨whites, blacks, symbols⟩
  let d ← interdep_with cfg f msgs
  let cmap ← cluster_map cfg d θ msgs
  let clus0 : List (Option Nat) := List.replicate msgs.length none
  let mask0 : List Str :=
    if comps.mask then
      match cmap.find? (fun e => decide (e.1 = [])) with
      | some e =>
          e.2.foldl (fun v i => v.set i (List.replicate (byteLen (msgs.getD i [])) '0'))
            (List.replicate msgs.length [])
      | none => List.replicate msgs.length []
    else []
  let temp0 : List StrSet := if comps.template then List.replicate cmap.length [] else []
  let res ← ((cmap.filter fun e => ¬ e.1 = []).enum).foldlM
    (tic_step cfg f comps msgs) ⟨clus0, mask0, temp0⟩
  pure (res.clus, res.maskv, res.tempv)

/-! Supporting lemmas for the binding-crate pipeline. -/

theorem mapM_get?_fwd {α β : Type _} (g : α → Option β) :
    ∀ (l : List α) (l' : List β) (i : Nat) (a : α),
      l.mapM g = some l' → l.get? i = some a →
      ∃ b, g a = some b ∧ l'.get? i = some b := by
  intro l
  induction l with
  | nil => intro l' i a _ hga; simp at hga
  | cons x xs ih =>
    intro l' i a hmap hget
    rw [List.mapM_cons] at hmap
    cases hgx : g x with
    | none => rw [hgx] at hmap; simp at hmap
    | some b0 =>
      rw [hgx] at hmap
      cases hxs : xs.mapM g with
      | none => rw [hxs] at hmap; simp at hmap
      | some bs =>
        rw [hxs] at hmap
        simp only [Option.pure_def, Option.bind_eq_bind, Option.some_bind,
          Option.some.injEq] at hmap
        subst hmap
        cases i with
        | zero =>
          simp only [List.get?] at hget ⊢
          cases hget
          exact ⟨b0, hgx, rfl⟩
        | succ n =>
          simp only [List.get?] at hget ⊢
          exact ih bs n a hxs hget

theorem mapM_get?_rev {α β : Type _} (g : α → Option β) :
    ∀ (l : List α) (l' : List β) (i : Nat) (b : β),
      l.mapM g = some l' → l'.get? i = some b →
      ∃ a, l.get? i = some a ∧ g a = some b := by
  intro l
  induction l with
  | nil =>
    intro l' i b hmap hget
    simp only [List.mapM_nil, Option.pure_def, Option.some.injEq] at hmap
    subst hmap
    simp at hget
  | cons x xs ih =>
    intro l' i b hmap hget
    rw [List.mapM_cons] at hmap
    cases hgx : g x with
    | none => rw [hgx] at hmap; simp at hmap
    | some b0 =>
      rw [hgx] at hmap
      cases hxs : xs.mapM g with
      | none => rw [hxs] at hmap; simp at hmap
      | some bs =>
        rw [hxs] at hmap
        simp only [Option.pure_def, Option.bind_eq_bind, Option.some_bind,
          Option.some.injEq] at hmap
        subst hmap
        cases i with
        | zero =>
          simp only [List.get?] at hget ⊢
          cases hget
          exact ⟨x, rfl, hgx⟩
        | succ n =>
          simp only [List.get?] at hget ⊢
          exact ih bs n b hxs hget

theorem foldl_set_get?_ne (z : Nat → Str) :
    ∀ (is : List Nat) (v : List Str) (i : Nat), i ∉ is →
      (is.foldl (fun v j => v.set j (z j)) v).get? i = v.get? i := by
  intro is
  induction is with
  | nil => intro v i _; rfl
  | cons j tl ih =>
    intro v i hi
    rw [List.foldl_cons]
    have hij : j ≠ i := fun h => hi (h ▸ List.mem_cons_self _ _)
    rw [ih _ _ (fun h => hi (List.mem_cons_of_mem _ h)), List.get?_set_ne _ _ hij]

theorem foldl_set_get? (z : Nat → Str) :
    ∀ (is : List Nat) (v : List Str) (i : Nat), i ∈ is → i < v.length →
      (is.foldl (fun v j => v.set j (z j)) v).get? i = some (z i) := by
  intro is
  induction is with
  | nil => intro v i hi _; cases hi
  | cons j tl ih =>
    intro v i hi hlen
    rw [List.foldl_cons]
    by_cases htl : i ∈ tl
    · exact ih _ _ htl (by simpa using hlen)
    · have hij : i = j := by
        rcases List.mem_cons.mp hi with h | h
        · exact h
        · exact absurd h htl
      subst hij
      rw [foldl_set_get?_ne z tl _ _ htl, List.get?_set_eq_of_lt _ hlen]

theorem find?_of_nodup_keys :
    ∀ (m : List (TokSet × List Nat)), ((m.map Prod.fst).Nodup) →
      ∀ e ∈ m, m.find? (fun x => decide (x.1 = e.1)) = some e := by
  intro m
  induction m with
  | nil => intro _ e he; cases he
  | cons e0 rest ih =>
    intro hn e he
    have hn' : e0.1 ∉ rest.map Prod.fst ∧ (rest.map Prod.fst).Nodup := by
      simpa [List.nodup_cons] using hn
    by_cases h0 : e0.1 = e.1
    · rcases List.mem_cons.mp he with rfl | hrest
      · exact List.find?_cons_of_pos _ (by simp)
      · exact absurd (h0 ▸ List.mem_map_of_mem Prod.fst hrest) hn'.1
    · have hrest : e ∈ rest := by
        rcases List.mem_cons.mp he with rfl | h
        · exact absurd rfl h0
        · exact h
      rw [List.find?_cons_of_neg _ (by simpa using h0)]
      exact ih hn'.2 e hrest

theorem keyed_get?_fst {g : Nat × Str → Option (Nat × TokSet)}
    (hg : ∀ i m e, g (i, m) = some e → e.1 = i)
    (msgs : List Str) (keyed : List (Nat × TokSet))
    (hK : msgs.enum.mapM g = some keyed) :
    ∀ q ∈ keyed, keyed.get? q.1 = some q := by
  intro q hq
  obtain ⟨pos, hpos⟩ := List.mem_iff_get?.mp hq
  obtain ⟨a, ha, hga⟩ := mapM_get?_rev g _ _ _ _ hK hpos
  rw [List.enum_get?] at ha
  cases hma : msgs.get? pos with
  | none => rw [hma] at ha; cases ha
  | some m =>
    rw [hma] at ha
    simp only [Option.map_some', Option.some.injEq] at ha
    subst ha
    have hfst : q.1 = pos := hg pos m q hga
    rw [hfst]
    exact hpos

/-- C9: with masks requested, a message whose anchor-token set is empty
keeps cluster id `none` and receives in the mask output an all-`'0'` mask
whose length is the message's byte length (the pre-filled `mask_vec` entry
of `token_independency_clusters` is never overwritten by the cluster
loop, which only visits non-empty-key groups). -/
theorem claim_C9_empty_anchor_zero_mask
    (msgs : List Str) (θ : Frac) (whites blacks : List RegexM) (symbols : List Char)
    (f : StaticFilter) (comps : Comps) (d : Interdep) (toks : List Token) (idx : Nat)
    (out : List (Option Nat) × List Str × List StrSet)
    (hm : comps.mask = true)
    (hd : interdep_with ⟨whites, blacks, symbols⟩ f msgs = some d)
    (hidx : idx < msgs.length)
    (ht : tokenize ⟨whites, blacks, symbols⟩ (msgs.getD idx []) = some toks)
    (hk : key_tokens d toks θ = [])
    (hout : token_independency_clusters msgs θ whites blacks symbols f comps = some out) :
    out.1.get? idx = some none ∧
      out.2.1.get? idx = some (List.replicate (byteLen (msgs.getD idx [])) '0') := by
  unfold token_independency_clusters at hout
  simp only [Option.pure_def, Option.bind_eq_bind] at hout
  rw [hd] at hout
  simp only [Option.some_bind] at hout
  rw [Option.bind_eq_some] at hout
  obtain ⟨cmap, hcm, hout⟩ := hout
  -- decompose cluster_map
  unfold cluster_map at hcm
  simp only [Option.pure_def, Option.bind_eq_bind] at hcm
  rw [Option.bind_eq_some] at hcm
  obtain ⟨keyed, hky, hgb⟩ := hcm
  simp only [Option.some.injEq] at hgb
  subst hgb
  -- the message at idx
  have hmsg : msgs.get? idx = some (msgs.getD idx []) := by
    cases hgq : msgs.get? idx with
    | none => exact absurd (List.get?_eq_none.mp hgq) (by omega)
    | some m =>
      have : msgs.getD idx [] = (msgs.get? idx).getD [] := rfl
      rw [this, hgq]
      rfl
  have henum : msgs.enum.get? idx = some (idx, msgs.getD idx []) := by
    rw [List.enum_get?, hmsg]; rfl
  -- the keyed entry at idx has key []
  have hkeyidx : keyed.get? idx = some (idx, ([] : TokSet)) := by
    obtain ⟨b, hb, hbidx⟩ := mapM_get?_fwd _ _ _ _ _ hky henum
    simp only [Option.pure_def, Option.bind_eq_bind] at hb
    rw [ht] at hb
    simp only [Option.some_bind, hk, Option.some.injEq] at hb
    rw [← hb] at hbidx
    exact hbidx
  have hmem : ((idx, ([] : TokSet))) ∈ keyed := List.get?_mem hkeyidx
  have hex : ∃ e ∈ groupByKey keyed, e.1 = [] ∧ idx ∈ e.2 := by
    unfold groupByKey
    exact groupFold_complete keyed [] idx [] (Or.inl hmem)
  obtain ⟨e, he, he1, he2⟩ := hex
  have hfind : (groupByKey keyed).find? (fun x => decide (x.1 = [])) = some e := by
    have h := find?_of_nodup_keys (groupByKey keyed) (groupByKey_keys_nodup keyed) e he
    simpa only [he1] using h
  rw [hm] at hout
  simp only [reduceIte, hfind] at hout
  rw [Option.bind_eq_some] at hout
  obtain ⟨res, hres, hout⟩ := hout
  simp only [Option.some.injEq] at hout
  -- positional characterisation of keyed
  have hgcond : ∀ (i : Nat) (m : Str) (e' : Nat × TokSet),
      (do
        let toks ← tokenize ⟨whites, blacks, symbols⟩ m
        pure (i, key_tokens d toks θ) : Option (Nat × TokSet)) = some e' → e'.1 = i := by
    intro i m e' hgm
    simp only [Option.pure_def, Option.bind_eq_bind] at hgm
    rw [Option.bind_eq_some] at hgm
    obtain ⟨ts, _, hgm⟩ := hgm
    simp only [Option.some.injEq] at hgm
    rw [← hgm]
  have hpos : ∀ p ∈ keyed, keyed.get? p.1 = some p := by
    refine keyed_get?_fst ?_ msgs keyed hky
    intro i m e' h
    exact hgcond i m e' (by simpa using h)
  -- messages in non-empty-key groups never have index idx
  have hnotin : ∀ e' ∈ groupByKey keyed, ¬ e'.1 = [] → idx ∉ e'.2 := by
    intro e' he' hne hin
    have he'' : e' ∈ keyed.foldl (fun m p => groupInsert m p.2 p.1) [] := by
      simpa only [groupByKey] using he'
    have hpred := groupFold_pred (fun p => keyed.get? p.1 = some p) keyed []
      (by simp) hpos e' he'' idx hin
    simp only [] at hpred
    rw [hkeyidx] at hpred
    have : (idx, ([] : TokSet)) = (idx, e'.1) := Option.some.inj hpred
    exact hne (congrArg Prod.snd this).symm
  -- invariant over the cluster loop
  have hP : res.clus.get? idx = some none ∧
      res.maskv.get? idx = some (List.replicate (byteLen (msgs.getD idx [])) '0') := by
    refine foldlM_inv _
      (fun st => st.clus.get? idx = some none ∧
        st.maskv.get? idx = some (List.replicate (byteLen (msgs.getD idx [])) '0'))
      _ ?_ _ _ hres
      ⟨by simp [List.get?_eq_getElem?, List.getElem?_replicate, hidx],
       foldl_set_get? (fun i => List.replicate (byteLen (msgs.getD i [])) '0')
         e.2 _ idx he2 (by simp [hidx])⟩
    intro st q st' hq hstep hPst
    have hq2 := List.snd_mem_of_mem_enum hq
    have hmemf := List.mem_filter.mp hq2
    have hq2ne : ¬ (q.2.1 = []) := by simpa using hmemf.2
    have hnidx : idx ∉ q.2.2 := hnotin q.2 hmemf.1 hq2ne
    unfold tic_step at hstep
    simp only [hm, Bool.true_or, reduceIte, Option.pure_def, Option.bind_eq_bind] at hstep
    rw [Option.bind_eq_some] at hstep
    obtain ⟨cw, hcw, hrest⟩ := hstep
    have hinner : ∀ (mm : List (Str × Str)) (cm : List (Option Nat) × List Str),
        List.foldlM
          (fun cm j => (alookup mm (msgs.getD j [])).bind fun v =>
            some (cm.1.set j (some q.1), cm.2.set j v)) (st.clus, st.maskv) q.2.2 = some cm →
        cm.1.get? idx = some none ∧
          cm.2.get? idx = some (List.replicate (byteLen (msgs.getD idx [])) '0') := by
      intro mm cm hfold
      refine foldlM_inv _
        (fun c => c.1.get? idx = some none ∧
          c.2.get? idx = some (List.replicate (byteLen (msgs.getD idx [])) '0'))
        _ ?_ _ _ hfold ⟨hPst.1, hPst.2⟩
      intro c j c' hj histep hPc
      rw [Option.bind_eq_some] at histep
      obtain ⟨v, _, hc'⟩ := histep
      simp only [Option.some.injEq] at hc'
      rw [← hc']
      have hji : j ≠ idx := fun h => hnidx (h ▸ hj)
      exact ⟨by rw [List.get?_set_ne _ _ hji]; exact hPc.1,
        by rw [List.get?_set_ne _ _ hji]; exact hPc.2⟩
    cases hct : comps.template with
    | true =>
      rw [hct] at hrest
      simp only [reduceIte, Option.some_bind] at hrest
      rw [Option.bind_eq_some] at hrest
      obtain ⟨t, _, hrest⟩ := hrest
      rw [Option.bind_eq_some] at hrest
      obtain ⟨mm, _, hrest⟩ := hrest
      rw [Option.bind_eq_some] at hrest
      obtain ⟨cm, hfoldinner, hrest⟩ := hrest
      simp only [Option.some_bind, Option.some.injEq] at hrest
      rw [← hrest]
      exact hinner mm cm hfoldinner
    | false =>
      rw [hct] at hrest
      simp only [Bool.false_eq_true, if_false, Option.some_bind] at hrest
      rw [Option.bind_eq_some] at hrest
      obtain ⟨mm, _, hrest⟩ := hrest
      rw [Option.bind_eq_some] at hrest
      obtain ⟨cm, hfoldinner, hrest⟩ := hrest
      simp only [Option.some_bind, Option.some.injEq] at hrest
      rw [← hrest]
      exact hinner mm cm hfoldinner
  rw [← hout]
  exact hP

theorem claim_C9_empty_anchor_zero_mask_witness :
    (([some 0, some 0, none], [['0', '0', '0'], ['0', '0', '0'], ['0']],
        ([] : List StrSet)) : List (Option Nat) × List Str × List StrSet).1.get? 2 =
        some none ∧
      (([some 0, some 0, none], [['0', '0', '0'], ['0', '0', '0'], ['0']],
        ([] : List StrSet)) : List (Option Nat) × List Str × List StrSet).2.1.get? 2 =
        some (List.replicate
          (byteLen (([['a', ' ', 'b'], ['a', ' ', 'b'], ['1']] : List Str).getD 2 [])) '0') :=
  claim_C9_empty_anchor_zero_mask [['a', ' ', 'b'], ['a', ' ', 'b'], ['1']] ⟨1, 2⟩ [] [] []
    ⟨true, false, false⟩ ⟨false, true⟩ ⟨[([['a']], 2), ([['b']], 2), ([['a'], ['b']], 2)]⟩
    [Token.numeric ['1']] 2
    ([some 0, some 0, none], [['0', '0', '0'], ['0', '0', '0'], ['0']], ([] : List StrSet))
    rfl (by decide) (by decide) (by decide) (by decide) (by decide)
